import Mathlib

/-! TAR filtering and appending in `pkg/utils/utils.go`.

A shallow embedding of `FilterTARArchive` and `WriteFileToTARArchive`.

The two functions drive objects of Go's standard library (`archive/tar`,
`io`, `io/ioutil`, `path/filepath`).  Those objects are modelled by what the
functions can observe of them:

* the input of `FilterTARArchive` is the sequence of results that
  `tar.Reader.Next` and `tar.Reader.Read` deliver (`TarInput`);
* the output is a `Sink` that records what was written to the underlying
  `io.Writer`, one `Cell` per byte, the blocks that encode a header being a
  single cell that carries the header; a sink may refuse a write call;
* `tar.Writer` is the state machine of `archive/tar/writer.go`
  (`Flush`, `WriteHeader`, `Write`, `Close`) over such a sink.  `WriteHeader`
  promotes the legacy type flag, refuses the headers the type-flag switch of
  `allowedFormats` refuses, and leaves the question whether the fields of a
  header can be encoded, and in how many write calls, to a parameter
  (`Encoder`);
* `filepath.Match` is a parameter of the model (`Matcher`); `filepathMatch`
  is the matcher of `path/filepath` on the bytes of pattern and name;
* a call that does not return because of a nil dereference is the outcome
  `Outcome.panic`.
-/

namespace ComponentCli

/-! ## Errors and outcomes -/

/-- Byte values carried by the streams. -/
abbrev Byte := Nat

/-- Go error values met in the two functions.  The end-of-stream signal
`io.EOF` is not among them: it is the separate constructor `ReadEnd.eof`. -/
inductive Error where
  | errBadPattern
  | errWriteTooLong
  | errWriteAfterClose
  | missedWriting (n : Nat)
  | headerError (why : String)
  | failure (msg : String)
  | new (msg : String)
  | wrapped (msg : String) (cause : Error)
  deriving DecidableEq, Repr

/-- The text of an error, as Go's `err.Error()` gives it; `wrapped` is
`fmt.Errorf(msg + ": %w", cause)`. -/
def Error.message : Error → String
  | .errBadPattern => "syntax error in pattern"
  | .errWriteTooLong => "archive/tar: write too long"
  | .errWriteAfterClose => "archive/tar: write after close"
  | .missedWriting n => "archive/tar: missed writing " ++ toString n ++ " bytes"
  | .headerError why => "archive/tar: cannot encode header: " ++ why
  | .failure msg => msg
  | .new msg => msg
  | .wrapped msg cause => msg ++ ": " ++ cause.message

/-- How a call ends: it returns nil, it returns an error, or it panics. -/
inductive Outcome where
  | ok
  | fail (e : Error)
  | panic
  deriving DecidableEq, Repr

/-! ## Headers, entries and the written stream -/

/-- The fields of `tar.Header` the two functions set or read, and the type
flag, which decides whether an entry has a body.  `ModTime` is in seconds. -/
structure Header where
  Typeflag : Nat
  Name : String
  Size : Nat
  Mode : Nat
  ModTime : Nat
  deriving DecidableEq, Repr

/-- The type flag of a header whose flag was not set (the NUL byte). -/
def TypeRegA : Nat := 0

/-- The type flag `'0'` of a regular file. -/
def TypeReg : Nat := 48

/-- The type flag `'1'` of a hard link. -/
def TypeLink : Nat := 49

/-- The type flag `'2'` of a symbolic link. -/
def TypeSymlink : Nat := 50

/-- The type flag `'3'` of a character device. -/
def TypeChar : Nat := 51

/-- The type flag `'4'` of a block device. -/
def TypeBlock : Nat := 52

/-- The type flag `'5'` of a directory. -/
def TypeDir : Nat := 53

/-- The type flag `'6'` of a FIFO. -/
def TypeFifo : Nat := 54

/-- The type flag `'x'` of a PAX extended header. -/
def TypeXHeader : Nat := 120

/-- The type flag `'S'` of a GNU sparse file. -/
def TypeGNUSparse : Nat := 83

/-- The type flag `'L'` of a GNU long name. -/
def TypeGNULongName : Nat := 76

/-- The type flag `'K'` of a GNU long link. -/
def TypeGNULongLink : Nat := 75

/-- Go's `isHeaderOnlyType`: the entries of these types have no body. -/
def isHeaderOnlyType (flag : Nat) : Bool :=
  decide (flag ∈ [TypeLink, TypeSymlink, TypeChar, TypeBlock, TypeDir, TypeFifo])

/-- The number of body bytes of an entry with this header: none for a
header-only type, `Size` otherwise. -/
def Header.bodySize (h : Header) : Nat := if isHeaderOnlyType h.Typeflag then 0 else h.Size

/-- Go's `strings.HasSuffix(name, "/")`. -/
def endsWithSlash (name : String) : Bool := decide (name.data.getLast? = some '/')

/-- The promotion of the legacy type flag in `WriteHeader` (and in
`Reader.Next`): an unset flag becomes that of a directory when the name ends
in a slash, that of a regular file otherwise. -/
def promote (h : Header) : Header :=
  if h.Typeflag = TypeRegA then
    { h with Typeflag := if endsWithSlash h.Name then TypeDir else TypeReg }
  else h

/-- What the tar writer decides about the fields of a header: it encodes
them, the extension records (PAX, GNU) taking `extra` write calls before
the header block, or it refuses them; a refusal met while an extension
record is formatted is `fatal`, it stays in `tw.err`. -/
inductive HeaderVerdict where
  | accept (extra : Nat)
  | refuse (e : Error) (fatal : Bool)
  deriving DecidableEq, Repr

/-- The encoding of header fields by `archive/tar` (field widths, formats,
extension records), a parameter of the model. -/
abbrev Encoder := Header → HeaderVerdict

/-- The type-flag switch of `Header.allowedFormats`: a file of a regular or
device type may not have a name that ends in a slash, and the types of
extension records cannot be written by hand. -/
def typeSwitch (h : Header) : Option Error :=
  if h.Typeflag ∈ [TypeReg, TypeChar, TypeBlock, TypeFifo, TypeGNUSparse] then
    if endsWithSlash h.Name then some (.headerError "filename may not have trailing slash")
    else none
  else if h.Typeflag ∈ [TypeXHeader, TypeGNULongName, TypeGNULongLink] then
    some (.headerError
      "cannot manually encode TypeXHeader, TypeGNULongName, or TypeGNULongLink headers")
  else none

/-- The verdict of the tar writer on a header (after promotion): the
refusals of the type-flag switch, which leave `tw.err` alone, then the
encoder. -/
def headerVerdict (enc : Encoder) (h : Header) : HeaderVerdict :=
  match typeSwitch h with
  | some e => .refuse e false
  | none => enc h

/-- One archive entry: its header and its body bytes. -/
structure Entry where
  header : Header
  body : List Byte
  deriving DecidableEq, Repr

/-- What the underlying writer receives: the blocks that encode a header
(512 bytes on the wire, with the extension records before them when there
are any), kept as the header they encode, or one byte of body, padding or
end-of-archive marker. -/
inductive Cell where
  | hdr (h : Header)
  | byte (b : Byte)
  deriving DecidableEq, Repr

/-- The block size of the TAR layout. -/
def blockSize : Nat := 512

/-- Go's `blockPadding`: bytes needed to reach the next block boundary. -/
def blockPadding (offset : Nat) : Nat := (blockSize - offset % blockSize) % blockSize

/-- A run of `n` zero bytes (`zeroBlock[:n]`). -/
def zeros (n : Nat) : List Cell := List.replicate n (Cell.byte 0)

/-- The underlying `io.Writer`.  `budget = none` accepts every write call;
`budget = some n` accepts `n` more calls and fails every later one. -/
structure Sink where
  written : List Cell
  budget : Option Nat
  deriving DecidableEq, Repr

/-- The error a sink reports once its budget is used up. -/
def sinkError : Error := Error.failure "write failed"

/-- One `Write` call on the underlying writer. -/
def Sink.Write (s : Sink) (p : List Cell) : Option Error × Sink :=
  match s.budget with
  | none => (none, { s with written := s.written ++ p })
  | some 0 => (some sinkError, s)
  | some (n + 1) => (none, { written := s.written ++ p, budget := some n })

/-! ## `tar.Writer` -/

/-- State of a `tar.Writer`: the underlying writer (`none` for a nil
`io.Writer`), the sticky error `tw.err`, the bytes the current entry still
expects and the padding owed after it. -/
structure TarWriter where
  w : Option Sink
  err : Option Error
  nb : Nat
  pad : Nat
  deriving DecidableEq, Repr

/-- Go's `tar.NewWriter`. -/
def NewWriter (w : Option Sink) : TarWriter := { w := w, err := none, nb := 0, pad := 0 }

/-- The call `tw.w.Write(p)`; on a nil interface it panics. -/
def TarWriter.rawWrite (tw : TarWriter) (p : List Cell) : Outcome × TarWriter :=
  match tw.w with
  | none => (.panic, tw)
  | some s =>
    match s.Write p with
    | (none, s1) => (.ok, { tw with w := some s1 })
    | (some e, s1) => (.fail e, { tw with w := some s1 })

/-- Go's `(*Writer).Flush`. -/
def TarWriter.Flush (tw : TarWriter) : Outcome × TarWriter :=
  match tw.err with
  | some e => (.fail e, tw)
  | none =>
    if tw.nb > 0 then (.fail (.missedWriting tw.nb), tw)
    else
      match tw.rawWrite (zeros tw.pad) with
      | (.ok, tw1) => (.ok, { tw1 with pad := 0 })
      | (.fail e, tw1) => (.fail e, { tw1 with err := some e })
      | (.panic, tw1) => (.panic, tw1)

/-- The write calls that put the extension records of a header on the
wire; what they write is part of the header cell. -/
def writeCalls : Nat → TarWriter → Outcome × TarWriter
  | 0, tw => (.ok, tw)
  | n + 1, tw =>
    match tw.rawWrite [] with
    | (.ok, tw1) => writeCalls n tw1
    | (.fail e, tw1) => (.fail e, tw1)
    | (.panic, tw1) => (.panic, tw1)

/-- Go's `(*Writer).WriteHeader`: `Flush`, the promotion of the type flag,
the verdict on the header, then the extension records and
`writeRawHeader`, which flushes again and writes the header block.  The
entry then expects `bodySize` bytes. -/
def TarWriter.WriteHeader (enc : Encoder) (tw : TarWriter) (hdr : Header) :
    Outcome × TarWriter :=
  match tw.Flush with
  | (.fail e, tw1) => (.fail e, tw1)
  | (.panic, tw1) => (.panic, tw1)
  | (.ok, tw1) =>
    match headerVerdict enc (promote hdr) with
    | .refuse e fatal => (.fail e, if fatal then { tw1 with err := some e } else tw1)
    | .accept extra =>
      match writeCalls extra tw1 with
      | (.fail e, tw2) => (.fail e, { tw2 with err := some e })
      | (.panic, tw2) => (.panic, tw2)
      | (.ok, tw2) =>
        match tw2.Flush with
        | (.fail e, tw3) => (.fail e, { tw3 with err := some e })
        | (.panic, tw3) => (.panic, tw3)
        | (.ok, tw3) =>
          match tw3.rawWrite [Cell.hdr (promote hdr)] with
          | (.fail e, tw4) => (.fail e, { tw4 with err := some e })
          | (.panic, tw4) => (.panic, tw4)
          | (.ok, tw4) =>
            (.ok, { tw4 with nb := (promote hdr).bodySize,
                             pad := blockPadding (promote hdr).bodySize })

/-- Go's `(*Writer).Write` over `regFileWriter.Write`: at most `nb` bytes are
accepted, a longer slice is cut and reported as `ErrWriteTooLong`. -/
def TarWriter.Write (tw : TarWriter) (b : List Byte) : Outcome × TarWriter :=
  match tw.err with
  | some e => (.fail e, tw)
  | none =>
    let overwrite : Bool := decide (b.length > tw.nb)
    let b1 := if overwrite then b.take tw.nb else b
    if b1.length > 0 then
      match tw.rawWrite (b1.map Cell.byte) with
      | (.fail e, tw1) => (.fail e, { tw1 with err := some e })
      | (.panic, tw1) => (.panic, tw1)
      | (.ok, tw1) =>
        if overwrite then (.fail .errWriteTooLong, { tw1 with nb := tw.nb - b1.length })
        else (.ok, { tw1 with nb := tw.nb - b1.length })
    else if overwrite then (.fail .errWriteTooLong, tw)
    else (.ok, tw)

/-- Go's `(*Writer).Close`: `Flush`, then the two zero blocks of the
end-of-archive marker; afterwards every action is `ErrWriteAfterClose`. -/
def TarWriter.Close (tw : TarWriter) : Outcome × TarWriter :=
  match tw.err with
  | some e => if e = .errWriteAfterClose then (.ok, tw) else (.fail e, tw)
  | none =>
    match tw.Flush with
    | (.fail e, tw1) => (.fail e, { tw1 with err := some .errWriteAfterClose })
    | (.panic, tw1) => (.panic, tw1)
    | (.ok, tw1) =>
      match tw1.rawWrite (zeros blockSize) with
      | (.fail e, tw2) => (.fail e, { tw2 with err := some .errWriteAfterClose })
      | (.panic, tw2) => (.panic, tw2)
      | (.ok, tw2) =>
        match tw2.rawWrite (zeros blockSize) with
        | (.fail e, tw3) => (.fail e, { tw3 with err := some .errWriteAfterClose })
        | (.panic, tw3) => (.panic, tw3)
        | (.ok, tw3) => (.ok, { tw3 with err := some .errWriteAfterClose })

/-! ## `io.Copy` into a `tar.Writer` -/

/-- How a stream of `Read` results ends: `io.EOF`, or an error. -/
inductive ReadEnd where
  | eof
  | fail (e : Error)
  deriving DecidableEq, Repr

/-- Go's `io.Copy(tw, src)`, `src` given by the chunks its `Read` calls
return and by how it ends.  An empty read writes nothing; a failed write
stops the copy; `io.EOF` ends it with nil.  (`Write` reports an error whenever
it takes fewer bytes than offered, so the short-write test never fires.) -/
def copyToTar (tw : TarWriter) : List (List Byte) → ReadEnd → Outcome × TarWriter
  | [], .eof => (.ok, tw)
  | [], .fail e => (.fail e, tw)
  | c :: cs, fin =>
    if c.length > 0 then
      match tw.Write c with
      | (.ok, tw1) => copyToTar tw1 cs fin
      | (.fail e, tw1) => (.fail e, tw1)
      | (.panic, tw1) => (.panic, tw1)
    else copyToTar tw cs fin

/-! ## `FilterTARArchive` -/

/-- One entry as `tar.Reader` delivers it: the header `Next` returns, the
chunks the following `Read` calls return, and how the body ends.  A body
that ends in an error also makes the `Next` that has to skip it fail. -/
structure InEntry where
  header : Header
  chunks : List (List Byte)
  bodyEnd : ReadEnd
  deriving DecidableEq, Repr

/-- The behaviour of a `tar.Reader` over a non-nil input: the entries it
delivers, then the result of the `Next` after the last one (`eof` for a
clean end of input, an error otherwise). -/
structure TarInput where
  entries : List InEntry
  final : ReadEnd
  deriving DecidableEq, Repr

deriving instance DecidableEq for Except

/-- The function `filepath.Match`, a parameter of the model: pattern, name,
result. -/
abbrev Matcher := String → String → Except Error Bool

/-- The inner loop of `FilterTARArchive` over `removePatterns` for one
name: the first pattern that reports an error ends it with that error, the
first pattern that matches ends it with `true`, otherwise `false`. -/
def removeFile (m : Matcher) : List String → String → Except Error Bool
  | [], _ => .ok false
  | p :: ps, name =>
    match m p name with
    | .error e => .error e
    | .ok true => .ok true
    | .ok false => removeFile m ps name

/-- The `NEXT_FILE` loop of `FilterTARArchive`, one iteration per entry the
reader delivers. -/
def filterLoop (m : Matcher) (enc : Encoder) (removePatterns : List String) :
    List InEntry → ReadEnd → TarWriter → Outcome × TarWriter
  | [], .eof, tw => (.ok, tw)
  | [], .fail e, tw => (.fail (.wrapped "unable to read header" e), tw)
  | x :: rest, final, tw =>
    match removeFile m removePatterns x.header.Name with
    | .error e => (.fail (.wrapped "unable to match filename against pattern" e), tw)
    | .ok true =>
      -- continue NEXT_FILE: the next tr.Next() skips the unread body
      match x.bodyEnd with
      | .fail e => (.fail (.wrapped "unable to read header" e), tw)
      | .eof => filterLoop m enc removePatterns rest final tw
    | .ok false =>
      match tw.WriteHeader enc x.header with
      | (.fail e, tw1) => (.fail (.wrapped "unable to write header" e), tw1)
      | (.panic, tw1) => (.panic, tw1)
      | (.ok, tw1) =>
        match copyToTar tw1 x.chunks x.bodyEnd with
        | (.fail e, tw2) => (.fail (.wrapped "unable to write file" e), tw2)
        | (.panic, tw2) => (.panic, tw2)
        | (.ok, tw2) => filterLoop m enc removePatterns rest final tw2

/-- The function `FilterTARArchive(r, w, removePatterns)`.  `r = none` and
`w = none` are nil interfaces.  The deferred `tw.Close()` runs on every exit,
its result is dropped; a panic in the body or in the deferred call leaves
the function as a panic.  The second component is the output afterwards. -/
def FilterTARArchive (m : Matcher) (enc : Encoder) (r : Option TarInput) (w : Option Sink)
    (removePatterns : List String) : Outcome × Option Sink :=
  let tw := NewWriter w
  let body : Outcome × TarWriter :=
    match r with
    | none => (.panic, tw)
    | some inp => filterLoop m enc removePatterns inp.entries inp.final tw
  let closed := body.2.Close
  match closed.1 with
  | .panic => (.panic, closed.2.w)
  | _ => (body.1, closed.2.w)

/-! ## `WriteFileToTARArchive` -/

/-- The temporary directory: the temporary files that exist, by name and
content, and the names that have an open handle. -/
structure FileSystem where
  temps : List (Nat × List Byte)
  opened : List Nat
  deriving DecidableEq, Repr

/-- Failures of the operating system a call may meet: creation of the
temporary file, the number of write calls the file accepts (`none`: all),
`Seek` and `Stat`. -/
structure Faults where
  create : Option Error
  writeBudget : Option Nat
  seek : Option Error
  stat : Option Error
  deriving DecidableEq, Repr

/-- No failure of the operating system. -/
def Faults.none : Faults :=
  { create := Option.none, writeBudget := Option.none, seek := Option.none, stat := Option.none }

/-- The names of the temporary files that exist. -/
def FileSystem.names (fs : FileSystem) : List Nat := fs.temps.map Prod.fst

/-- The name `ioutil.TempFile` picks: one that no existing file has. -/
def FileSystem.freshName (fs : FileSystem) : Nat := fs.names.foldr max 0 + 1

/-- Effect of a successful `ioutil.TempFile("", "")`: a new empty file with an open handle. -/
def FileSystem.createTemp (fs : FileSystem) : FileSystem :=
  { temps := fs.temps ++ [(fs.freshName, [])], opened := fs.freshName :: fs.opened }

/-- The content of file `name` becomes `content`. -/
def FileSystem.setContent (fs : FileSystem) (name : Nat) (content : List Byte) : FileSystem :=
  { fs with temps := fs.temps.map (fun f => if f.1 = name then (name, content) else f) }

/-- Effect of `tempfile.Close()`: the handle is released; the file stays. -/
def FileSystem.close (fs : FileSystem) (name : Nat) : FileSystem :=
  { fs with opened := fs.opened.erase name }

/-- The content reader handed to `WriteFileToTARArchive`: the chunks its
`Read` calls return and how it ends. -/
structure ContentReader where
  chunks : List (List Byte)
  fin : ReadEnd
  deriving DecidableEq, Repr

/-- The error of a write to the temporary file once its budget is used up. -/
def fileError : Error := Error.failure "no space left on device"

/-- Go's `io.Copy(tempfile, contentReader)`: every non-empty chunk is one
write to the file; returns the error, if any, and the content of the file. -/
def copyToFile : Option Nat → List Byte → List (List Byte) → ReadEnd → Option Error × List Byte
  | _, acc, [], .eof => (none, acc)
  | _, acc, [], .fail e => (some e, acc)
  | b, acc, c :: cs, fin =>
    if c.length > 0 then
      match b with
      | some 0 => (some fileError, acc)
      | some (n + 1) => copyToFile (some n) (acc ++ c) cs fin
      | none => copyToFile none (acc ++ c) cs fin
    else copyToFile b acc cs fin

/-- The buffer size of `io.Copy`. -/
def copyBufSize : Nat := 32 * 1024

/-- The chunks in which a file is read back: `size` bytes a call until the
content is used up. -/
def splitReads (size : Nat) : Nat → List Byte → List (List Byte)
  | 0, _ => []
  | fuel + 1, l =>
    match l with
    | [] => []
    | b :: bs => (b :: bs).take size :: splitReads size fuel ((b :: bs).drop size)

/-- The `Read` results of `io.Copy(outArchive, tempfile)` on a file of the given content. -/
def fileReads (content : List Byte) : List (List Byte) :=
  splitReads copyBufSize content.length content

/-- What a call of `WriteFileToTARArchive` leaves: its outcome, the
temporary directory and the tar writer. -/
structure AppendResult where
  outcome : Outcome
  fs : FileSystem
  tw : Option TarWriter
  deriving DecidableEq, Repr

/-- The header `WriteFileToTARArchive` builds: the type flag is not set,
the mode is the 0600 of a temporary file. -/
def fileHeader (filename : String) (size now : Nat) : Header :=
  { Typeflag := TypeRegA, Name := filename, Size := size, Mode := 0o600, ModTime := now }

/-- The statements of `WriteFileToTARArchive` after the temporary file has
been created: outcome, content of the temporary file, tar writer. -/
def appendBody (enc : Encoder) (faults : Faults) (now : Nat) (filename : String)
    (contentReader : Option ContentReader) (outArchive : Option TarWriter) :
    Outcome × List Byte × Option TarWriter :=
  match contentReader with
  | none => (.panic, [], outArchive)
  | some rd =>
    match copyToFile faults.writeBudget [] rd.chunks rd.fin with
    | (some e, content) => (.fail (.wrapped "unable to write content to file" e), content, outArchive)
    | (none, content) =>
      match faults.seek with
      | some e => (.fail (.wrapped "unable to seek to beginning of file" e), content, outArchive)
      | none =>
        match faults.stat with
        | some e => (.fail (.wrapped "unable to get file info" e), content, outArchive)
        | none =>
          match outArchive with
          | none => (.panic, content, none)
          | some tw =>
            match tw.WriteHeader enc (fileHeader filename content.length now) with
            | (.fail e, tw1) => (.fail (.wrapped "unable to write tar header" e), content, some tw1)
            | (.panic, tw1) => (.panic, content, some tw1)
            | (.ok, tw1) =>
              match copyToTar tw1 (fileReads content) .eof with
              | (.fail e, tw2) =>
                (.fail (.wrapped "unable to write file to tar archive" e), content, some tw2)
              | (.panic, tw2) => (.panic, content, some tw2)
              | (.ok, tw2) => (.ok, content, some tw2)

/-- The function `WriteFileToTARArchive(filename, contentReader, outArchive)`
in the temporary directory `fs`, at time `now`.  `contentReader = none` is a
nil interface, `outArchive = none` a nil pointer.  The deferred
`tempfile.Close()` runs on every exit after the file was created. -/
def WriteFileToTARArchive (enc : Encoder) (fs : FileSystem) (faults : Faults) (now : Nat)
    (filename : String) (contentReader : Option ContentReader)
    (outArchive : Option TarWriter) : AppendResult :=
  match faults.create with
  | some e => { outcome := .fail (.wrapped "unable to create tempfile" e), fs := fs, tw := outArchive }
  | none =>
    let name := fs.freshName
    let fs1 := fs.createTemp
    let body := appendBody enc faults now filename contentReader outArchive
    let fs2 := fs1.setContent name body.2.1
    { outcome := body.1, fs := fs2.close name, tw := body.2.2 }

/-! ## The layout of a finished archive and its reading -/

/-- The cells of one entry: header, body, padding to the block boundary. -/
def encodeEntry (e : Entry) : List Cell :=
  Cell.hdr e.header :: (e.body.map Cell.byte ++ zeros (blockPadding e.header.bodySize))

/-- The cells of a sequence of entries. -/
def encodeEntries : List Entry → List Cell
  | [] => []
  | e :: es => encodeEntry e ++ encodeEntries es

/-- The end-of-archive marker: two zero blocks. -/
def trailer : List Cell := zeros blockSize ++ zeros blockSize

/-- The cells of a finished archive. -/
def encodeArchive (es : List Entry) : List Cell := encodeEntries es ++ trailer

/-- Where a reading of the written stream stands. -/
inductive DecState where
  | header
  | body (h : Header) (need : Nat) (acc : List Byte)
  | pad (n : Nat)
  | marker (n : Nat)
  | bad
  deriving DecidableEq, Repr

/-- State after `n` more padding bytes are owed. -/
def enterPad (n : Nat) : DecState := if n = 0 then .header else .pad n

/-- State and entries after the header `h` has been read and `need` body
bytes are still owed, `acc` being the body so far. -/
def enterBody (h : Header) (need : Nat) (acc : List Byte) (es : List Entry) :
    DecState × List Entry :=
  if need = 0 then (enterPad (blockPadding h.bodySize), es ++ [{ header := h, body := acc }])
  else (.body h need acc, es)

/-- One cell of the stream.  At a block boundary a header starts an entry
of `bodySize` body bytes and a zero byte starts the end-of-archive marker, of
which `2 * blockSize` zero bytes are required and after which nothing may
follow. -/
def decodeStep (st : DecState × List Entry) (c : Cell) : DecState × List Entry :=
  match st.1, c with
  | .header, .hdr h => enterBody h h.bodySize [] st.2
  | .header, .byte b => if b = 0 then (.marker (2 * blockSize - 1), st.2) else (.bad, st.2)
  | .body h (n + 1) acc, .byte b => enterBody h n (acc ++ [b]) st.2
  | .pad (n + 1), .byte _ => (enterPad n, st.2)
  | .marker (n + 1), .byte b => if b = 0 then (.marker n, st.2) else (.bad, st.2)
  | _, _ => (.bad, st.2)

/-- Reading of a finished archive: the entries of the stream, provided it
is a sequence of complete entries followed by the end-of-archive marker and
nothing else. -/
def decodeArchive (cells : List Cell) : Option (List Entry) :=
  match cells.foldl decodeStep (.header, []) with
  | (.marker 0, es) => some es
  | _ => none

/-- An entry is sound: it has as many body bytes as its header assigns. -/
def Entry.Sound (e : Entry) : Prop := e.header.bodySize = e.body.length

/-- The entry a reader delivers, once its body is read in full. -/
def InEntry.toEntry (x : InEntry) : Entry := { header := x.header, body := x.chunks.flatten }

/-- What `tar.Reader` guarantees of every entry it delivers: the legacy
type flag has been promoted, and a body that ends with `io.EOF` has exactly
the bytes the header assigns. -/
def InEntry.Consistent (x : InEntry) : Prop :=
  x.header.Typeflag ≠ TypeRegA ∧ (x.bodyEnd = .eof → x.header.bodySize = x.chunks.flatten.length)

instance (x : InEntry) : Decidable x.Consistent := by unfold InEntry.Consistent; infer_instance

/-- An input entry is sound: the reader delivers it as it delivers every
entry, and its body ends with `io.EOF`. -/
def InEntry.Valid (x : InEntry) : Prop :=
  x.header.Typeflag ≠ TypeRegA ∧ x.bodyEnd = .eof ∧ x.header.bodySize = x.chunks.flatten.length

instance (x : InEntry) : Decidable x.Valid := by unfold InEntry.Valid; infer_instance

/-- A valid input archive: sound entries, then a clean end of input. -/
def TarInput.Valid (inp : TarInput) : Prop := (∀ x ∈ inp.entries, x.Valid) ∧ inp.final = .eof

instance (inp : TarInput) : Decidable inp.Valid := by unfold TarInput.Valid; infer_instance

/-- An output that accepts every write and holds nothing yet. -/
def Sink.fresh : Sink := { written := [], budget := none }

/-! ## `filepath.Match`

The glob matcher of Go's `path/filepath` (Unix: separator `/`, backslash
escapes).  Go strings are byte sequences: pattern and name are taken as
their UTF-8 bytes, and runes are decoded where the Go code decodes them.
The theorems below take the matcher as a parameter; this one instantiates
them. -/

/-- The UTF-8 bytes of a code point. -/
def utf8Bytes (c : Nat) : List Byte :=
  if c < 0x80 then [c]
  else if c < 0x800 then [0xC0 + c / 64, 0x80 + c % 64]
  else if c < 0x10000 then [0xE0 + c / 4096, 0x80 + c / 64 % 64, 0x80 + c % 64]
  else [0xF0 + c / 262144, 0x80 + c / 4096 % 64, 0x80 + c / 64 % 64, 0x80 + c % 64]

/-- The bytes of a string as Go holds it. -/
def goBytes (s : String) : List Byte := s.data.flatMap (fun c => utf8Bytes c.toNat)

/-- Go's `utf8.RuneError`. -/
def runeError : Nat := 0xFFFD

/-- Whether a byte is a UTF-8 continuation byte. -/
def isCont (b : Byte) : Bool := decide (0x80 ≤ b ∧ b ≤ 0xBF)

/-- Go's `utf8.DecodeRuneInString`: the first rune and its width in
bytes; `(runeError, 1)` for an invalid encoding, `(runeError, 0)` for the
empty string. -/
def decodeRune : List Byte → Nat × Nat
  | [] => (runeError, 0)
  | b0 :: rest =>
    if b0 < 0x80 then (b0, 1)
    else if 0xC2 ≤ b0 ∧ b0 ≤ 0xDF then
      match rest with
      | b1 :: _ => if isCont b1 then (b0 % 32 * 64 + b1 % 64, 2) else (runeError, 1)
      | [] => (runeError, 1)
    else if 0xE0 ≤ b0 ∧ b0 ≤ 0xEF then
      match rest with
      | b1 :: b2 :: _ =>
        if (if b0 = 0xE0 then 0xA0 else 0x80) ≤ b1 ∧ b1 ≤ (if b0 = 0xED then 0x9F else 0xBF)
            ∧ isCont b2 then
          (b0 % 16 * 4096 + b1 % 64 * 64 + b2 % 64, 3)
        else (runeError, 1)
      | _ => (runeError, 1)
    else if 0xF0 ≤ b0 ∧ b0 ≤ 0xF4 then
      match rest with
      | b1 :: b2 :: b3 :: _ =>
        if (if b0 = 0xF0 then 0x90 else 0x80) ≤ b1 ∧ b1 ≤ (if b0 = 0xF4 then 0x8F else 0xBF)
            ∧ isCont b2 ∧ isCont b3 then
          (b0 % 8 * 262144 + b1 % 64 * 4096 + b2 % 64 * 64 + b3 % 64, 4)
        else (runeError, 1)
      | _ => (runeError, 1)
    else (runeError, 1)

/-- The byte `*`. -/
def bStar : Byte := 42

/-- The byte `?`. -/
def bQuest : Byte := 63

/-- The byte `[`. -/
def bOpen : Byte := 91

/-- The byte `]`. -/
def bClose : Byte := 93

/-- The byte of the backslash. -/
def bEsc : Byte := 92

/-- The byte `-`. -/
def bDash : Byte := 45

/-- The byte `^`. -/
def bCaret : Byte := 94

/-- The byte `/`, the separator. -/
def bSlash : Byte := 47

/-- The leading stars of a pattern: whether there is one, and what follows them. -/
def dropStars : List Byte → Bool × List Byte
  | [] => (false, [])
  | c :: cs => if c = bStar then (true, (dropStars cs).2) else (false, c :: cs)

/-- The scan of `scanChunk`: the pattern up to the first star outside a
character class, and the pattern from that star on. -/
def scanTo (inrange : Bool) : List Byte → List Byte × List Byte
  | [] => ([], [])
  | c :: cs =>
    if c = bEsc then
      match cs with
      | [] => ([c], [])
      | d :: ds => let r := scanTo inrange ds; (c :: d :: r.1, r.2)
    else if c = bOpen then
      let r := scanTo true cs; (c :: r.1, r.2)
    else if c = bClose then
      let r := scanTo false cs; (c :: r.1, r.2)
    else if c = bStar then
      if inrange then (let r := scanTo inrange cs; (c :: r.1, r.2)) else ([], c :: cs)
    else
      let r := scanTo inrange cs; (c :: r.1, r.2)

/-- Go's `scanChunk`: star, chunk, rest of the pattern. -/
def scanChunk (pattern : List Byte) : Bool × List Byte × List Byte :=
  let s := dropStars pattern
  let r := scanTo false s.2
  (s.1, r.1, r.2)

/-- Go's `getEsc`: a possibly escaped rune of a character class, and the
chunk after it. -/
def getEsc : List Byte → Except Error (Nat × List Byte)
  | [] => .error .errBadPattern
  | c :: cs =>
    if c = bDash ∨ c = bClose then .error .errBadPattern
    else
      match (if c = bEsc then cs else c :: cs) with
      | [] => .error .errBadPattern
      | d :: ds =>
        let r := decodeRune (d :: ds)
        let nchunk := (d :: ds).drop r.2
        if (r.1 = runeError ∧ r.2 = 1) ∨ nchunk = [] then .error .errBadPattern
        else .ok (r.1, nchunk)

/-- The range loop of a character class in `matchChunk`: whether `r` is in
one of the ranges, and the chunk after the closing bracket. -/
def classLoop (r : Nat) : Nat → List Byte → Bool → Nat → Except Error (Bool × List Byte)
  | 0, _, _, _ => .error .errBadPattern
  | fuel + 1, chunk, mt, nrange =>
    if chunk.head? = some bClose ∧ nrange > 0 then .ok (mt, chunk.tail)
    else
      match getEsc chunk with
      | .error e => .error e
      | .ok (lo, chunk1) =>
        if chunk1.head? = some bDash then
          match getEsc chunk1.tail with
          | .error e => .error e
          | .ok (hi, chunk2) =>
            classLoop r fuel chunk2 (mt || (decide (lo ≤ r) && decide (r ≤ hi))) (nrange + 1)
        else classLoop r fuel chunk1 (mt || (decide (lo ≤ r) && decide (r ≤ lo))) (nrange + 1)

/-- The loop of Go's `matchChunk`; `some rest` is a match that leaves `rest`
of the name, `none` is no match.  After the match has failed the chunk is
still checked for being well formed, the name being read no more. -/
def matchChunkLoop : Nat → List Byte → List Byte → Bool → Except Error (Option (List Byte))
  | 0, _, _, _ => .error .errBadPattern
  | fuel + 1, chunk, s, failed0 =>
    match chunk with
    | [] => if failed0 then .ok none else .ok (some s)
    | c :: chunk1 =>
      let failed : Bool := failed0 || s.isEmpty
      if c = bOpen then
        let r : Nat := if failed then 0 else (decodeRune s).1
        let s1 := if failed then s else s.drop (decodeRune s).2
        let negated : Bool := decide (chunk1.head? = some bCaret)
        let chunk2 := if negated then chunk1.tail else chunk1
        match classLoop r (chunk2.length + 1) chunk2 false 0 with
        | .error e => .error e
        | .ok (mt, chunk3) => matchChunkLoop fuel chunk3 s1 (failed || (mt == negated))
      else if c = bQuest then
        if failed then matchChunkLoop fuel chunk1 s failed
        else matchChunkLoop fuel chunk1 (s.drop (decodeRune s).2) (decide (s.head? = some bSlash))
      else if c = bEsc then
        match chunk1 with
        | [] => .error .errBadPattern
        | d :: chunk2 =>
          if failed then matchChunkLoop fuel chunk2 s failed
          else matchChunkLoop fuel chunk2 s.tail (decide (s.head? ≠ some d))
      else
        if failed then matchChunkLoop fuel chunk1 s failed
        else matchChunkLoop fuel chunk1 s.tail (decide (s.head? ≠ some c))

/-- Go's `matchChunk`. -/
def matchChunk (chunk s : List Byte) : Except Error (Option (List Byte)) :=
  matchChunkLoop (chunk.length + 1) chunk s false

/-- The search after a star in `Match`: the chunk is tried after skipping
one more byte of the name, never a separator. -/
def starSearch (chunk : List Byte) (lastChunk : Bool) : List Byte → Except Error (Option (List Byte))
  | [] => .ok none
  | c :: rest =>
    if c = bSlash then .ok none
    else
      match matchChunk chunk rest with
      | .error e => .error e
      | .ok (some t) => if lastChunk && !t.isEmpty then starSearch chunk lastChunk rest else .ok (some t)
      | .ok none => starSearch chunk lastChunk rest

/-- The `Pattern` loop of Go's `Match`: chunk after chunk; a chunk that
does not match where the name stands is searched for after a star; when it
is not found the answer is "no match", the rest of the pattern unread. -/
def matchLoop : Nat → List Byte → List Byte → Except Error Bool
  | 0, _, _ => .error .errBadPattern
  | fuel + 1, pattern, name =>
    if pattern = [] then .ok (decide (name = []))
    else
      let sc := scanChunk pattern
      let star := sc.1
      let chunk := sc.2.1
      let rest := sc.2.2
      if star && chunk.isEmpty then .ok (!name.contains bSlash)
      else
        match matchChunk chunk name with
        | .error e => .error e
        | .ok (some t) =>
          if t.isEmpty || !rest.isEmpty then matchLoop fuel rest t
          else if star then
            match starSearch chunk rest.isEmpty name with
            | .error e => .error e
            | .ok (some t1) => matchLoop fuel rest t1
            | .ok none => .ok false
          else .ok false
        | .ok none =>
          if star then
            match starSearch chunk rest.isEmpty name with
            | .error e => .error e
            | .ok (some t1) => matchLoop fuel rest t1
            | .ok none => .ok false
          else .ok false

/-- Go's `filepath.Match(pattern, name)`. -/
def filepathMatch : Matcher := fun pattern name =>
  matchLoop ((goBytes pattern).length + 1) (goBytes pattern) (goBytes name)

/-! ## What is kept -/

/-- Whether the tar writer accepts a header: after promotion neither the
type-flag switch nor the encoder refuses it. -/
def accepts (enc : Encoder) (h : Header) : Bool :=
  match headerVerdict enc (promote h) with
  | .accept _ => true
  | .refuse _ _ => false

/-- Whether some pattern of the list matches the name. -/
def matchesAny (m : Matcher) (P : List String) (name : String) : Bool :=
  P.any (fun p => decide (m p name = .ok true))

/-- The entries whose name no pattern of the list matches, in input order. -/
def unmatchedEntries (m : Matcher) (P : List String) (xs : List InEntry) : List Entry :=
  (xs.filter (fun x => !matchesAny m P x.header.Name)).map InEntry.toEntry

/-- The entries for which the pattern loop answers "keep", in input order. -/
def keptEntries (m : Matcher) (P : List String) (xs : List InEntry) : List Entry :=
  (xs.filter (fun x => decide (removeFile m P x.header.Name = .ok false))).map InEntry.toEntry

/-- A tar writer without error on an output that accepts every write and
holds `wr`, with `nb` body bytes and `pad` padding bytes owed. -/
def openOn (wr : List Cell) (nb pad : Nat) : TarWriter :=
  { w := some { written := wr, budget := none }, err := none, nb := nb, pad := pad }

/-- Where the loop of `FilterTARArchive` fails with the error text `msg`
wrapping `e`, for the two texts of a header error and of a pattern error:
the header read after the last entry fails with `e`; or the first of the
remaining entries is removed and skipping its body fails with `e`; or the
pattern loop reports `e` on the name of the first of the remaining entries. -/
def FailsAt (m : Matcher) (P : List String) (msg : String) (e : Error) (rest : List InEntry)
    (final : ReadEnd) : Prop :=
  (msg = "unable to read header" ∧ rest = [] ∧ final = .fail e) ∨
  (msg = "unable to read header" ∧ ∃ bad post, rest = bad :: post ∧
    removeFile m P bad.header.Name = .ok true ∧ bad.bodyEnd = .fail e) ∨
  (msg = "unable to match filename against pattern" ∧ ∃ bad post, rest = bad :: post ∧
    removeFile m P bad.header.Name = .error e)

/-! ## Inputs of the tests -/

/-- An encoder of headers whose fields fit the one header block: no
extension record, no refusal.  The headers of the tests are of this kind. -/
def singleBlock : Encoder := fun _ => .accept 0

/-- The header `tar.Reader` delivers for a file the tests wrote: a regular
file of mode 0600. -/
def testHeader (name : String) (size : Nat) : Header :=
  { Typeflag := TypeReg, Name := name, Size := size, Mode := 0o600, ModTime := 0 }

/-- The bytes of "some-content". -/
def someContent : List Byte := [115, 111, 109, 101, 45, 99, 111, 110, 116, 101, 110, 116]

/-- The bytes of "more-content". -/
def moreContent : List Byte := [109, 111, 114, 101, 45, 99, 111, 110, 116, 101, 110, 116]

/-- The bytes of "other-content". -/
def otherContent : List Byte := [111, 116, 104, 101, 114, 45, 99, 111, 110, 116, 101, 110, 116]

/-- The entry `first/testfile` of the test "should filter archive", its body read in one chunk. -/
def firstFile : InEntry :=
  { header := testHeader "first/testfile" 12, chunks := [someContent], bodyEnd := .eof }

/-- The entry `second/testfile` of the test. -/
def secondFile : InEntry :=
  { header := testHeader "second/testfile" 12, chunks := [moreContent], bodyEnd := .eof }

/-- The entry `second/testfile-2` of the test. -/
def thirdFile : InEntry :=
  { header := testHeader "second/testfile-2" 13, chunks := [otherContent], bodyEnd := .eof }

/-- The input archive of the test "should filter archive". -/
def testArchive : TarInput := { entries := [firstFile, secondFile, thirdFile], final := .eof }

/-- The archive without entries. -/
def emptyArchive : TarInput := { entries := [], final := .eof }

/-- A regular file (type flag `'0'`) named `x/` with the body `abc`, as
`tar.Reader` delivers it from an archive that holds such an entry. -/
def slashFile : InEntry :=
  { header := testHeader "x/" 3, chunks := [[97, 98, 99]], bodyEnd := .eof }

/-- A hard link `ln` whose header declares the size 5: an entry without body. -/
def linkFile : InEntry :=
  { header := { Typeflag := TypeLink, Name := "ln", Size := 5, Mode := 0o600, ModTime := 0 },
    chunks := [], bodyEnd := .eof }

/-- The bytes of "testcontent". -/
def testContent : List Byte := [116, 101, 115, 116, 99, 111, 110, 116, 101, 110, 116]

/-- The reader `bytes.NewReader(content)` of the test "should write file", read in one chunk. -/
def testBody : ContentReader := { chunks := [testContent], fin := .eof }

/-- The reader `bytes.NewReader([]byte{})` of the tests. -/
def emptyBody : ContentReader := { chunks := [], fin := .eof }

/-- A temporary directory without files. -/
def noTemps : FileSystem := { temps := [], opened := [] }

/-! ## Open writers and appended entries -/

/-- An open tar writer that holds the entries `ps`: it has no error, it
stands between two entries, and what was written, with the padding still
owed, is the layout of `ps`. -/
def TarWriter.Holds (tw : TarWriter) (ps : List Entry) : Prop :=
  tw.err = none ∧ tw.nb = 0 ∧ ∃ s, tw.w = some s ∧ s.written ++ zeros tw.pad = encodeEntries ps

/-- The entry `WriteFileToTARArchive` appends for the name `N` and the
content `B` at time `now`: the header it builds, with size `len(B)`, as the
tar writer writes it. -/
def appendedEntry (N : String) (now : Nat) (B : List Byte) : Entry :=
  { header := promote (fileHeader N B.length now), body := B }

/-! ## The tar writer on an output that accepts every write -/

theorem NewWriter_fresh : NewWriter (some Sink.fresh) = openOn [] 0 0 := rfl

theorem promote_of_ne (h : Header) (hne : h.Typeflag ≠ TypeRegA) : promote h = h := by
  simp [promote, hne]

theorem bodySize_le_size (h : Header) : h.bodySize ≤ h.Size := by
  unfold Header.bodySize
  split <;> omega

theorem Flush_openOn (wr : List Cell) (pad : Nat) :
    (openOn wr 0 pad).Flush = (.ok, openOn (wr ++ zeros pad) 0 0) := by
  simp [TarWriter.Flush, TarWriter.rawWrite, Sink.Write, openOn]

theorem writeCalls_openOn (n : Nat) (wr : List Cell) (nb pad : Nat) :
    writeCalls n (openOn wr nb pad) = (.ok, openOn wr nb pad) := by
  induction n with
  | zero => rfl
  | succ n ih =>
    have h1 : (openOn wr nb pad).rawWrite [] = (.ok, openOn wr nb pad) := by
      simp [TarWriter.rawWrite, Sink.Write, openOn]
    simp only [writeCalls, h1, ih]

theorem WriteHeader_openOn (enc : Encoder) (wr : List Cell) (pad : Nat) (h : Header)
    (extra : Nat) (hacc : headerVerdict enc (promote h) = .accept extra) :
    (openOn wr 0 pad).WriteHeader enc h
      = (.ok, openOn (wr ++ zeros pad ++ [Cell.hdr (promote h)]) (promote h).bodySize
          (blockPadding (promote h).bodySize)) := by
  have h1 : (openOn (wr ++ zeros pad) 0 0).rawWrite [Cell.hdr (promote h)]
      = (.ok, openOn (wr ++ zeros pad ++ [Cell.hdr (promote h)]) 0 0) := by
    simp [TarWriter.rawWrite, Sink.Write, openOn]
  have h2 : (openOn (wr ++ zeros pad) 0 0).Flush = (.ok, openOn (wr ++ zeros pad) 0 0) := by
    rw [Flush_openOn]; simp [zeros]
  simp only [TarWriter.WriteHeader, Flush_openOn, hacc, writeCalls_openOn, h2, h1]
  simp [openOn]

theorem WriteHeader_openOn_refused (enc : Encoder) (wr : List Cell) (pad : Nat) (h : Header)
    (e : Error) (fatal : Bool) (href : headerVerdict enc (promote h) = .refuse e fatal) :
    ((openOn wr 0 pad).WriteHeader enc h).1 = .fail e := by
  simp only [TarWriter.WriteHeader, Flush_openOn, href]

theorem Write_openOn (wr : List Cell) (nb pad : Nat) (b : List Byte) (hb : b.length ≤ nb) :
    (openOn wr nb pad).Write b = (.ok, openOn (wr ++ b.map Cell.byte) (nb - b.length) pad) := by
  cases b with
  | nil => simp [TarWriter.Write, openOn]
  | cons x xs =>
    have h1 : ¬ (nb < xs.length + 1) := by simp at hb; omega
    simp [TarWriter.Write, TarWriter.rawWrite, Sink.Write, openOn, h1]

theorem copyToTar_openOn (chunks : List (List Byte)) (wr : List Cell) (nb pad : Nat)
    (h : chunks.flatten.length ≤ nb) :
    copyToTar (openOn wr nb pad) chunks .eof
      = (.ok, openOn (wr ++ chunks.flatten.map Cell.byte) (nb - chunks.flatten.length) pad) := by
  induction chunks generalizing wr nb with
  | nil => simp [copyToTar]
  | cons c cs ih =>
    simp only [List.flatten_cons, List.length_append] at h
    by_cases hc : c.length > 0
    · have hle : c.length ≤ nb := by omega
      have hrest : cs.flatten.length ≤ nb - c.length := by omega
      simp only [copyToTar, hc, if_true, Write_openOn wr nb pad c hle]
      rw [ih _ _ hrest]
      simp [List.append_assoc, Nat.sub_sub]
    · have hnil : c = [] := by
        cases c with
        | nil => rfl
        | cons x xs => simp at hc
      subst hnil
      simp only [copyToTar, List.length_nil, gt_iff_lt, lt_self_iff_false, if_false]
      rw [ih _ _ (by simpa using h)]
      simp

theorem Close_openOn (wr : List Cell) (pad : Nat) :
    (openOn wr 0 pad).Close
      = (.ok, { openOn (wr ++ zeros pad ++ trailer) 0 0 with err := some .errWriteAfterClose }) := by
  simp [TarWriter.Close, TarWriter.Flush, TarWriter.rawWrite, Sink.Write, openOn, trailer]

/-! ## The pattern loop -/

theorem removeFile_of_results (m : Matcher) (name : String) (P : List String)
    (hwf : ∀ p ∈ P, ∃ b, m p name = .ok b) :
    removeFile m P name = .ok (matchesAny m P name) := by
  induction P with
  | nil => simp [removeFile, matchesAny]
  | cons p ps ih =>
    obtain ⟨b, hb⟩ := hwf p (List.mem_cons_self p ps)
    have ih1 := ih (fun q hq => hwf q (List.mem_cons_of_mem p hq))
    cases b with
    | true => simp [removeFile, matchesAny, hb]
    | false =>
      simp only [removeFile, hb, ih1]
      simp [matchesAny, hb]

theorem matchesAny_eq_false_iff (m : Matcher) (P : List String) (name : String) :
    matchesAny m P name = false ↔ ∀ p ∈ P, m p name ≠ .ok true := by
  simp [matchesAny]

/-- The pattern loop reports an error exactly when some pattern of the
list reports it after all patterns before it answered "no match". -/
theorem removeFile_error_iff (m : Matcher) (P : List String) (name : String) (e : Error) :
    removeFile m P name = .error e ↔
      ∃ pre p post, P = pre ++ p :: post ∧ (∀ q ∈ pre, m q name = .ok false) ∧
        m p name = .error e := by
  induction P with
  | nil =>
    constructor
    · intro h; simp [removeFile] at h
    · rintro ⟨pre, p, post, h, _⟩
      simp at h
  | cons a as ih =>
    constructor
    · intro h
      cases ha : m a name with
      | error e1 =>
        simp only [removeFile, ha, Except.error.injEq] at h
        exact ⟨[], a, as, rfl, by simp, by rw [ha, h]⟩
      | ok b =>
        cases b with
        | true => simp [removeFile, ha] at h
        | false =>
          simp only [removeFile, ha] at h
          obtain ⟨pre, p, post, h1, h2, h3⟩ := ih.mp h
          refine ⟨a :: pre, p, post, by simp [h1], ?_, h3⟩
          intro q hq
          rcases List.mem_cons.mp hq with rfl | hq1
          · exact ha
          · exact h2 q hq1
    · rintro ⟨pre, p, post, h1, h2, h3⟩
      cases pre with
      | nil =>
        simp only [List.nil_append, List.cons.injEq] at h1
        obtain ⟨rfl, rfl⟩ := h1
        simp [removeFile, h3]
      | cons b bs =>
        simp only [List.cons_append, List.cons.injEq] at h1
        obtain ⟨rfl, rfl⟩ := h1
        have hb := h2 a (List.mem_cons_self a bs)
        simp only [removeFile, hb]
        exact ih.mpr ⟨bs, p, post, rfl, fun q hq => h2 q (List.mem_cons_of_mem a hq), h3⟩

/-! ## The filter loop on sound entries -/

theorem keptEntries_cons_removed (m : Matcher) (P : List String) (x : InEntry) (xs : List InEntry)
    (h : removeFile m P x.header.Name = .ok true) :
    keptEntries m P (x :: xs) = keptEntries m P xs := by
  simp [keptEntries, List.filter_cons, h]

theorem keptEntries_cons_kept (m : Matcher) (P : List String) (x : InEntry) (xs : List InEntry)
    (h : removeFile m P x.header.Name = .ok false) :
    keptEntries m P (x :: xs) = x.toEntry :: keptEntries m P xs := by
  simp [keptEntries, List.filter_cons, h]

theorem keptEntries_append (m : Matcher) (P : List String) (xs ys : List InEntry) :
    keptEntries m P (xs ++ ys) = keptEntries m P xs ++ keptEntries m P ys := by
  simp [keptEntries]

theorem keptEntries_eq_unmatched (m : Matcher) (P : List String) (xs : List InEntry)
    (hwf : ∀ p ∈ P, ∀ x ∈ xs, ∃ b, m p x.header.Name = .ok b) :
    keptEntries m P xs = unmatchedEntries m P xs := by
  unfold keptEntries unmatchedEntries
  congr 1
  apply List.filter_congr
  intro x hx
  rw [removeFile_of_results m x.header.Name P (fun p hp => hwf p hp x hx)]
  cases matchesAny m P x.header.Name <;> simp

theorem removeFile_results_of_patterns (m : Matcher) (P : List String) (xs : List InEntry)
    (hwf : ∀ p ∈ P, ∀ x ∈ xs, ∃ b, m p x.header.Name = .ok b) :
    ∀ x ∈ xs, ∃ b, removeFile m P x.header.Name = .ok b :=
  fun x hx => ⟨_, removeFile_of_results m x.header.Name P (fun p hp => hwf p hp x hx)⟩

theorem accepts_iff (enc : Encoder) (h : Header) :
    accepts enc h = true ↔ ∃ extra, headerVerdict enc (promote h) = .accept extra := by
  unfold accepts
  cases headerVerdict enc (promote h) with
  | accept extra => simp
  | refuse e fatal => simp

theorem not_accepts_iff (enc : Encoder) (h : Header) :
    accepts enc h = false ↔ ∃ e fatal, headerVerdict enc (promote h) = .refuse e fatal := by
  unfold accepts
  cases headerVerdict enc (promote h) with
  | accept extra => simp
  | refuse e fatal => simp

/-- The step of the loop at a sound entry that is kept and whose header the
tar writer accepts. -/
theorem filterLoop_cons_kept (m : Matcher) (enc : Encoder) (P : List String) (x : InEntry)
    (xs : List InEntry) (final : ReadEnd) (wr : List Cell) (pad : Nat) (hx : x.Valid)
    (hrm : removeFile m P x.header.Name = .ok false) (hacc : accepts enc x.header = true) :
    filterLoop m enc P (x :: xs) final (openOn wr 0 pad)
      = filterLoop m enc P xs final
          (openOn (wr ++ zeros pad ++ [Cell.hdr x.header] ++ x.chunks.flatten.map Cell.byte) 0
            (blockPadding x.header.bodySize)) := by
  obtain ⟨extra, hv⟩ := (accepts_iff enc x.header).mp hacc
  have hp : promote x.header = x.header := promote_of_ne _ hx.1
  have hlen : x.chunks.flatten.length ≤ x.header.bodySize := by rw [hx.2.2]
  have hwh := WriteHeader_openOn enc wr pad x.header extra hv
  rw [hp] at hwh
  have hcopy : copyToTar (openOn (wr ++ zeros pad ++ [Cell.hdr x.header]) x.header.bodySize
      (blockPadding x.header.bodySize)) x.chunks x.bodyEnd
      = (.ok, openOn (wr ++ zeros pad ++ [Cell.hdr x.header] ++ x.chunks.flatten.map Cell.byte)
          0 (blockPadding x.header.bodySize)) := by
    rw [hx.2.1, copyToTar_openOn x.chunks _ _ _ hlen, hx.2.2, Nat.sub_self]
  simp only [filterLoop, hrm, hwh, hcopy]

/-- The step of the loop at a sound entry that is removed. -/
theorem filterLoop_cons_removed (m : Matcher) (enc : Encoder) (P : List String) (x : InEntry)
    (xs : List InEntry) (final : ReadEnd) (tw : TarWriter) (hx : x.bodyEnd = .eof)
    (hrm : removeFile m P x.header.Name = .ok true) :
    filterLoop m enc P (x :: xs) final tw = filterLoop m enc P xs final tw := by
  simp only [filterLoop, hrm, hx]

/-- The loop over a segment of sound entries on which the pattern loop
reports no error and of which the tar writer accepts the kept ones: the
kept entries of the segment are written, and the loop goes on with what
follows the segment. -/
theorem filterLoop_sound_segment (m : Matcher) (enc : Encoder) (P : List String)
    (pre : List InEntry) (hvalid : ∀ x ∈ pre, x.Valid)
    (hres : ∀ x ∈ pre, ∃ b, removeFile m P x.header.Name = .ok b)
    (hacc : ∀ x ∈ pre, removeFile m P x.header.Name = .ok false → accepts enc x.header = true)
    (wr : List Cell) (pad : Nat) :
    ∃ wr1 pad1, wr1 ++ zeros pad1 = wr ++ zeros pad ++ encodeEntries (keptEntries m P pre) ∧
      ∀ rest final, filterLoop m enc P (pre ++ rest) final (openOn wr 0 pad)
        = filterLoop m enc P rest final (openOn wr1 0 pad1) := by
  induction pre generalizing wr pad with
  | nil => exact ⟨wr, pad, by simp [keptEntries, encodeEntries], fun _ _ => rfl⟩
  | cons x xs ih =>
    have hx : x.Valid := hvalid x (List.mem_cons_self x xs)
    have hxs : ∀ y ∈ xs, y.Valid := fun y hy => hvalid y (List.mem_cons_of_mem x hy)
    have hresxs : ∀ y ∈ xs, ∃ b, removeFile m P y.header.Name = .ok b :=
      fun y hy => hres y (List.mem_cons_of_mem x hy)
    have haccxs : ∀ y ∈ xs, removeFile m P y.header.Name = .ok false →
        accepts enc y.header = true :=
      fun y hy => hacc y (List.mem_cons_of_mem x hy)
    obtain ⟨b, hrm⟩ := hres x (List.mem_cons_self x xs)
    cases b with
    | true =>
      obtain ⟨wr1, pad1, hout, hrun⟩ := ih hxs hresxs haccxs wr pad
      refine ⟨wr1, pad1, ?_, ?_⟩
      · rw [keptEntries_cons_removed m P x xs hrm]; exact hout
      · intro rest final
        rw [List.cons_append, filterLoop_cons_removed m enc P x _ final _ hx.2.1 hrm]
        exact hrun rest final
    | false =>
      obtain ⟨wr1, pad1, hout, hrun⟩ :=
        ih hxs hresxs haccxs
          (wr ++ zeros pad ++ [Cell.hdr x.header] ++ x.chunks.flatten.map Cell.byte)
          (blockPadding x.header.bodySize)
      refine ⟨wr1, pad1, ?_, ?_⟩
      · rw [keptEntries_cons_kept m P x xs hrm, hout]
        simp [encodeEntries, encodeEntry, InEntry.toEntry, List.append_assoc]
      · intro rest final
        rw [List.cons_append, filterLoop_cons_kept m enc P x _ final wr pad hx hrm
          (hacc x (List.mem_cons_self x xs) hrm)]
        exact hrun rest final

/-! ## Reading back a finished archive -/

theorem enterBody_succ (h : Header) (n : Nat) (acc : List Byte) (es : List Entry) :
    enterBody h (n + 1) acc es = (.body h (n + 1) acc, es) := by
  simp [enterBody]

theorem decode_body (h : Header) (es : List Entry) (bs acc : List Byte) :
    (bs.map Cell.byte).foldl decodeStep (enterBody h bs.length acc es)
      = (enterPad (blockPadding h.bodySize), es ++ [{ header := h, body := acc ++ bs }]) := by
  induction bs generalizing acc with
  | nil => simp [enterBody]
  | cons b bs ih =>
    have := ih (acc ++ [b])
    simp only [List.append_assoc, List.singleton_append] at this
    rw [List.map_cons, List.length_cons, enterBody_succ, List.foldl_cons]
    simp only [decodeStep]
    exact this

theorem decode_pad (es : List Entry) (n : Nat) :
    (zeros n).foldl decodeStep (enterPad n, es) = (.header, es) := by
  induction n with
  | zero => simp [zeros, enterPad]
  | succ n ih =>
    simp only [zeros, List.replicate_succ, List.foldl_cons] at ih ⊢
    simpa [enterPad, decodeStep] using ih

theorem decode_marker (es : List Entry) (n : Nat) :
    (zeros n).foldl decodeStep (.marker n, es) = (.marker 0, es) := by
  induction n with
  | zero => simp [zeros]
  | succ n ih =>
    simp only [zeros, List.replicate_succ, List.foldl_cons] at ih ⊢
    simpa [decodeStep] using ih

theorem trailer_eq : trailer = Cell.byte 0 :: zeros (2 * blockSize - 1) := by
  simp only [trailer, zeros, blockSize, ← List.replicate_add, ← List.replicate_succ]

theorem decode_trailer (es : List Entry) :
    trailer.foldl decodeStep (.header, es) = (.marker 0, es) := by
  rw [trailer_eq, List.foldl_cons]
  simpa [decodeStep] using decode_marker es (2 * blockSize - 1)

theorem decode_entry (es : List Entry) (e : Entry) (he : e.Sound) :
    (encodeEntry e).foldl decodeStep (.header, es) = (.header, es ++ [e]) := by
  have hb := decode_body e.header es e.body []
  unfold Entry.Sound at he
  rw [← he] at hb
  simp only [encodeEntry, List.foldl_cons, List.foldl_append]
  simp only [decodeStep, hb, List.nil_append]
  exact decode_pad _ _

theorem decode_entries (es0 es : List Entry) (hes : ∀ e ∈ es, e.Sound) :
    (encodeEntries es).foldl decodeStep (.header, es0) = (.header, es0 ++ es) := by
  induction es generalizing es0 with
  | nil => simp [encodeEntries]
  | cons e es ih =>
    simp only [encodeEntries, List.foldl_append]
    rw [decode_entry es0 e (hes e (List.mem_cons_self e es)),
      ih _ (fun y hy => hes y (List.mem_cons_of_mem e hy))]
    simp

/-- Reading back the layout of a finished archive gives its entries. -/
theorem decodeArchive_encodeArchive (es : List Entry) (hes : ∀ e ∈ es, e.Sound) :
    decodeArchive (encodeArchive es) = some es := by
  simp [decodeArchive, encodeArchive, List.foldl_append, decode_entries [] es hes, decode_trailer]

theorem keptEntries_sound (m : Matcher) (P : List String) (xs : List InEntry)
    (hvalid : ∀ x ∈ xs, x.Valid) :
    ∀ e ∈ keptEntries m P xs, e.Sound := by
  intro e he
  simp only [keptEntries, List.mem_map, List.mem_filter] at he
  obtain ⟨x, ⟨hx, _⟩, rfl⟩ := he
  exact (hvalid x hx).2.2

/-- The deferred close after a loop that left the writer without error
between two entries, on an output that accepts every write. -/
theorem FilterTARArchive_of_loop (m : Matcher) (enc : Encoder) (P : List String) (inp : TarInput)
    (res : Outcome) (wr1 : List Cell) (pad1 : Nat)
    (h : filterLoop m enc P inp.entries inp.final (openOn [] 0 0) = (res, openOn wr1 0 pad1)) :
    FilterTARArchive m enc (some inp) (some Sink.fresh) P
      = (res, some { written := wr1 ++ zeros pad1 ++ trailer, budget := none }) := by
  simp only [FilterTARArchive, NewWriter_fresh, h, Close_openOn]
  cases res <;> simp [openOn]

/-- The call on sound entries on whose names the pattern loop reports no
error and whose kept headers the tar writer accepts, the output accepting
every write: the outcome is decided by how the input ends, and the output is
the finished archive of the kept entries. -/
theorem FilterTARArchive_sound_entries (m : Matcher) (enc : Encoder) (P : List String)
    (xs : List InEntry) (final : ReadEnd) (hvalid : ∀ x ∈ xs, x.Valid)
    (hres : ∀ x ∈ xs, ∃ b, removeFile m P x.header.Name = .ok b)
    (hacc : ∀ x ∈ xs, removeFile m P x.header.Name = .ok false → accepts enc x.header = true) :
    FilterTARArchive m enc (some { entries := xs, final := final }) (some Sink.fresh) P
      = ((match final with
          | .eof => Outcome.ok
          | .fail e => Outcome.fail (.wrapped "unable to read header" e)),
         some { written := encodeArchive (keptEntries m P xs), budget := none }) := by
  obtain ⟨wr1, pad1, hout, hrun⟩ := filterLoop_sound_segment m enc P xs hvalid hres hacc [] 0
  have h := hrun [] final
  simp only [List.append_nil] at h
  simp only [zeros, List.replicate_zero, List.append_nil, List.nil_append] at hout
  cases final with
  | eof =>
    rw [FilterTARArchive_of_loop m enc P _ .ok wr1 pad1 (by simpa [filterLoop] using h)]
    simp [encodeArchive, ← hout, zeros]
  | fail e =>
    rw [FilterTARArchive_of_loop m enc P _ (.fail (.wrapped "unable to read header" e)) wr1 pad1
      (by simpa [filterLoop] using h)]
    simp [encodeArchive, ← hout, zeros]

/-! ## The tar writer: what a successful action has done -/

theorem rawWrite_ok (tw tw1 : TarWriter) (p : List Cell) (h : tw.rawWrite p = (.ok, tw1)) :
    ∃ s s1, tw.w = some s ∧ tw1 = { tw with w := some s1 } ∧ s1.written = s.written ++ p := by
  unfold TarWriter.rawWrite at h
  cases hw : tw.w with
  | none => simp [hw] at h
  | some s =>
    simp only [hw] at h
    unfold Sink.Write at h
    cases hb : s.budget with
    | none =>
      simp only [hb, Prod.mk.injEq, true_and] at h
      exact ⟨s, _, rfl, h.symm, rfl⟩
    | some n =>
      cases n with
      | zero => simp [hb] at h
      | succ k =>
        simp only [hb, Prod.mk.injEq, true_and] at h
        exact ⟨s, _, rfl, h.symm, rfl⟩

theorem Flush_ok (tw tw1 : TarWriter) (h : tw.Flush = (.ok, tw1)) :
    tw.err = none ∧ tw.nb = 0 ∧
    ∃ s s1, tw.w = some s ∧ tw1 = { w := some s1, err := none, nb := 0, pad := 0 } ∧
      s1.written = s.written ++ zeros tw.pad := by
  unfold TarWriter.Flush at h
  cases he : tw.err with
  | some e => simp [he] at h
  | none =>
    simp only [he] at h
    by_cases hnb : tw.nb > 0
    · simp [hnb] at h
    · have hnb0 : tw.nb = 0 := by omega
      simp only [hnb, if_false] at h
      cases hr : tw.rawWrite (zeros tw.pad) with
      | mk o tw0 =>
        rw [hr] at h
        cases o with
        | ok =>
          obtain ⟨s, s1, hs, htw0, hwr⟩ := rawWrite_ok tw tw0 _ hr
          simp only [Prod.mk.injEq, true_and] at h
          refine ⟨rfl, hnb0, s, s1, hs, ?_, hwr⟩
          rw [← h, htw0]
          simp [he, hnb0]
        | fail e => simp at h
        | panic => simp at h

theorem writeCalls_ok (n : Nat) (s : Sink) (err : Option Error) (nb pad : Nat) (tw1 : TarWriter)
    (h : writeCalls n { w := some s, err := err, nb := nb, pad := pad } = (.ok, tw1)) :
    ∃ s1, tw1 = { w := some s1, err := err, nb := nb, pad := pad } ∧ s1.written = s.written := by
  induction n generalizing s with
  | zero =>
    simp only [writeCalls, Prod.mk.injEq, true_and] at h
    exact ⟨s, h.symm, rfl⟩
  | succ n ih =>
    unfold writeCalls at h
    cases hr : TarWriter.rawWrite { w := some s, err := err, nb := nb, pad := pad } [] with
    | mk o tw0 =>
      rw [hr] at h
      cases o with
      | fail e => simp at h
      | panic => simp at h
      | ok =>
        obtain ⟨s0, s1, hs0, htw0, hwr⟩ := rawWrite_ok _ tw0 _ hr
        simp only [Option.some.injEq] at hs0
        subst hs0
        simp only at h
        rw [htw0] at h
        obtain ⟨s2, h2, hw2⟩ := ih s1 h
        exact ⟨s2, h2, by rw [hw2, hwr]; simp⟩

theorem WriteHeader_ok (enc : Encoder) (tw tw1 : TarWriter) (hdr : Header)
    (h : tw.WriteHeader enc hdr = (.ok, tw1)) :
    tw.err = none ∧ tw.nb = 0 ∧
    ∃ s s1, tw.w = some s ∧
      tw1 = { w := some s1, err := none, nb := (promote hdr).bodySize,
              pad := blockPadding (promote hdr).bodySize } ∧
      s1.written = s.written ++ zeros tw.pad ++ [Cell.hdr (promote hdr)] := by
  unfold TarWriter.WriteHeader at h
  cases hf1 : tw.Flush with
  | mk o1 twa =>
    rw [hf1] at h
    cases o1 with
    | fail e => simp at h
    | panic => simp at h
    | ok =>
      obtain ⟨he, hnb, s, sa, hs, htwa, hwa⟩ := Flush_ok tw twa hf1
      simp only at h
      cases hv : headerVerdict enc (promote hdr) with
      | refuse e fatal => simp [hv] at h
      | accept extra =>
        simp only [hv] at h
        cases hwc : writeCalls extra twa with
        | mk o0 twx =>
          rw [hwc] at h
          cases o0 with
          | fail e => simp at h
          | panic => simp at h
          | ok =>
            rw [htwa] at hwc
            obtain ⟨sx, htwx, hwx⟩ := writeCalls_ok extra sa none 0 0 twx hwc
            simp only at h
            cases hf2 : twx.Flush with
            | mk o2 twb =>
              rw [hf2] at h
              cases o2 with
              | fail e => simp at h
              | panic => simp at h
              | ok =>
                obtain ⟨_, _, sx1, sb, hsx, htwb, hwb⟩ := Flush_ok twx twb hf2
                simp only at h
                cases hr : twb.rawWrite [Cell.hdr (promote hdr)] with
                | mk o3 twc =>
                  rw [hr] at h
                  cases o3 with
                  | fail e => simp at h
                  | panic => simp at h
                  | ok =>
                    obtain ⟨sb1, sc, hsb, htwc, hwc1⟩ := rawWrite_ok twb twc _ hr
                    simp only [Prod.mk.injEq, true_and] at h
                    refine ⟨he, hnb, s, sc, hs, ?_, ?_⟩
                    · rw [← h, htwc, htwb]
                    · rw [htwx] at hsx
                      rw [htwb] at hsb
                      simp only [Option.some.injEq] at hsx hsb
                      subst hsx hsb
                      rw [hwc1, hwb, hwx, hwa, htwx]
                      simp [zeros]

theorem Write_ok (s : Sink) (nb pad : Nat) (tw1 : TarWriter) (b : List Byte)
    (h : TarWriter.Write { w := some s, err := none, nb := nb, pad := pad } b = (.ok, tw1)) :
    b.length ≤ nb ∧
    ∃ s1, tw1 = { w := some s1, err := none, nb := nb - b.length, pad := pad } ∧
      s1.written = s.written ++ b.map Cell.byte := by
  unfold TarWriter.Write at h
  simp only at h
  by_cases hov : b.length > nb
  · simp only [hov, decide_True, if_true] at h
    split at h
    · split at h
      · simp at h
      · simp at h
      · simp at h
    · simp at h
  · have hle : b.length ≤ nb := by omega
    simp only [hov, decide_False, Bool.false_eq_true, if_false] at h
    refine ⟨hle, ?_⟩
    by_cases hpos : b.length > 0
    · simp only [hpos, if_true] at h
      cases hr : TarWriter.rawWrite { w := some s, err := none, nb := nb, pad := pad }
          (b.map Cell.byte) with
      | mk o tw0 =>
        rw [hr] at h
        cases o with
        | fail e => simp at h
        | panic => simp at h
        | ok =>
          obtain ⟨s0, s1, hs0, htw0, hwr⟩ := rawWrite_ok _ tw0 _ hr
          simp only [Option.some.injEq] at hs0
          subst hs0
          simp only [Prod.mk.injEq, true_and] at h
          exact ⟨s1, by rw [← h, htw0], hwr⟩
    · have hnil : b = [] := by
        cases b with
        | nil => rfl
        | cons x xs => simp at hpos
      subst hnil
      simp only [List.length_nil, gt_iff_lt, lt_self_iff_false, if_false, Prod.mk.injEq,
        true_and] at h
      exact ⟨s, by rw [← h]; simp, by simp⟩

theorem copyToTar_ok (chunks : List (List Byte)) (fin : ReadEnd) (s : Sink) (nb pad : Nat)
    (tw1 : TarWriter)
    (h : copyToTar { w := some s, err := none, nb := nb, pad := pad } chunks fin = (.ok, tw1)) :
    fin = .eof ∧ chunks.flatten.length ≤ nb ∧
    ∃ s1, tw1 = { w := some s1, err := none, nb := nb - chunks.flatten.length, pad := pad } ∧
      s1.written = s.written ++ chunks.flatten.map Cell.byte := by
  induction chunks generalizing s nb with
  | nil =>
    cases fin with
    | fail e => simp [copyToTar] at h
    | eof =>
      simp only [copyToTar, Prod.mk.injEq, true_and] at h
      exact ⟨rfl, by simp, s, by rw [← h]; simp, by simp⟩
  | cons c cs ih =>
    unfold copyToTar at h
    by_cases hc : c.length > 0
    · simp only [hc, if_true] at h
      cases hw : TarWriter.Write { w := some s, err := none, nb := nb, pad := pad } c with
      | mk o tw0 =>
        rw [hw] at h
        cases o with
        | fail e => simp at h
        | panic => simp at h
        | ok =>
          obtain ⟨hle, s0, htw0, hwr0⟩ := Write_ok s nb pad tw0 c hw
          simp only at h
          rw [htw0] at h
          obtain ⟨hfin, hle1, s1, htw1, hwr1⟩ := ih s0 (nb - c.length) h
          refine ⟨hfin, by simp only [List.flatten_cons, List.length_append]; omega, s1, ?_, ?_⟩
          · rw [htw1]; simp [Nat.sub_sub]
          · rw [hwr1, hwr0]; simp
    · have hnil : c = [] := by
        cases c with
        | nil => rfl
        | cons x xs => simp at hc
      subst hnil
      simp only [List.length_nil, gt_iff_lt, lt_self_iff_false, if_false] at h
      obtain ⟨hfin, hle1, s1, htw1, hwr1⟩ := ih s nb h
      exact ⟨hfin, by simpa using hle1, s1, by simpa using htw1, by simpa using hwr1⟩

theorem Close_ok (s : Sink) (nb pad : Nat) (tw1 : TarWriter)
    (h : TarWriter.Close { w := some s, err := none, nb := nb, pad := pad } = (.ok, tw1)) :
    nb = 0 ∧ ∃ s1, tw1.w = some s1 ∧ s1.written = s.written ++ zeros pad ++ trailer := by
  unfold TarWriter.Close at h
  simp only at h
  cases hf : TarWriter.Flush { w := some s, err := none, nb := nb, pad := pad } with
  | mk o1 twa =>
    rw [hf] at h
    cases o1 with
    | fail e => simp at h
    | panic => simp at h
    | ok =>
      obtain ⟨_, hnb, s0, sa, hs0, htwa, hwa⟩ := Flush_ok _ twa hf
      simp only [Option.some.injEq] at hs0
      subst hs0
      simp only at h
      cases hr1 : twa.rawWrite (zeros blockSize) with
      | mk o2 twb =>
        rw [hr1] at h
        cases o2 with
        | fail e => simp at h
        | panic => simp at h
        | ok =>
          obtain ⟨sa1, sb, hsa, htwb, hwb⟩ := rawWrite_ok twa twb _ hr1
          simp only at h
          cases hr2 : twb.rawWrite (zeros blockSize) with
          | mk o3 twc =>
            rw [hr2] at h
            cases o3 with
            | fail e => simp at h
            | panic => simp at h
            | ok =>
              obtain ⟨sb1, sc, hsb, htwc, hwc⟩ := rawWrite_ok twb twc _ hr2
              simp only [Prod.mk.injEq, true_and] at h
              refine ⟨hnb, sc, by rw [← h, htwc], ?_⟩
              rw [htwa] at hsa
              rw [htwb] at hsb
              simp only [Option.some.injEq] at hsa hsb
              subst hsa hsb
              rw [hwc, hwb, hwa]
              simp [trailer, List.append_assoc]

/-! ## The temporary file -/

theorem copyToFile_ok (chunks : List (List Byte)) (budget : Option Nat) (acc : List Byte)
    (fin : ReadEnd) (content : List Byte)
    (h : copyToFile budget acc chunks fin = (none, content)) :
    fin = .eof ∧ content = acc ++ chunks.flatten := by
  induction chunks generalizing budget acc with
  | nil =>
    cases fin with
    | eof =>
      simp only [copyToFile, Prod.mk.injEq, true_and] at h
      exact ⟨rfl, by simp [h]⟩
    | fail e => simp [copyToFile] at h
  | cons c cs ih =>
    unfold copyToFile at h
    by_cases hc : c.length > 0
    · simp only [hc, if_true] at h
      cases budget with
      | none =>
        obtain ⟨h1, h2⟩ := ih none (acc ++ c) h
        exact ⟨h1, by simp [h2]⟩
      | some n =>
        cases n with
        | zero => simp at h
        | succ k =>
          obtain ⟨h1, h2⟩ := ih (some k) (acc ++ c) h
          exact ⟨h1, by simp [h2]⟩
    · have hnil : c = [] := by
        cases c with
        | nil => rfl
        | cons x xs => simp at hc
      subst hnil
      simp only [List.length_nil, gt_iff_lt, lt_self_iff_false, if_false] at h
      obtain ⟨h1, h2⟩ := ih budget acc h
      exact ⟨h1, by simp [h2]⟩

theorem splitReads_flatten (size : Nat) (hsize : 0 < size) (fuel : Nat) (l : List Byte)
    (hfuel : l.length ≤ fuel) : (splitReads size fuel l).flatten = l := by
  induction fuel generalizing l with
  | zero =>
    have : l = [] := by
      cases l with
      | nil => rfl
      | cons x xs => simp at hfuel
    subst this
    simp [splitReads]
  | succ n ih =>
    cases l with
    | nil => simp [splitReads]
    | cons b bs =>
      have hdrop : ((b :: bs).drop size).length ≤ n := by
        simp only [List.length_drop, List.length_cons] at hfuel ⊢
        omega
      simp only [splitReads, List.flatten_cons, ih _ hdrop, List.take_append_drop]

theorem fileReads_flatten (content : List Byte) : (fileReads content).flatten = content :=
  splitReads_flatten copyBufSize (by decide) content.length content (Nat.le_refl _)

theorem encodeEntries_append (a b : List Entry) :
    encodeEntries (a ++ b) = encodeEntries a ++ encodeEntries b := by
  induction a with
  | nil => simp [encodeEntries]
  | cons e es ih => simp [encodeEntries, ih, List.append_assoc]

/-- A call of the statements after the creation of the temporary file that
returns nil has drained the reader to `io.EOF`, written the header with the
size of the content, and copied the content into the tar writer. -/
theorem appendBody_ok (enc : Encoder) (faults : Faults) (now : Nat) (filename : String)
    (rd : ContentReader) (tw : TarWriter) (content : List Byte) (otw : Option TarWriter)
    (h : appendBody enc faults now filename (some rd) (some tw) = (.ok, content, otw)) :
    rd.fin = .eof ∧ content = rd.chunks.flatten ∧
    ∃ twa twb,
      tw.WriteHeader enc (fileHeader filename content.length now) = (.ok, twa) ∧
      copyToTar twa (fileReads content) .eof = (.ok, twb) ∧ otw = some twb := by
  unfold appendBody at h
  simp only at h
  cases hcf : copyToFile faults.writeBudget [] rd.chunks rd.fin with
  | mk oe c =>
    rw [hcf] at h
    cases oe with
    | some e => simp at h
    | none =>
      obtain ⟨hfin, hc⟩ := copyToFile_ok rd.chunks faults.writeBudget [] rd.fin c hcf
      simp only [List.nil_append] at hc
      simp only at h
      cases hseek : faults.seek with
      | some e => simp [hseek] at h
      | none =>
        cases hstat : faults.stat with
        | some e => simp [hseek, hstat] at h
        | none =>
          simp only [hseek, hstat] at h
          cases hwh : tw.WriteHeader enc (fileHeader filename c.length now) with
          | mk o1 twa =>
            rw [hwh] at h
            cases o1 with
            | fail e => simp at h
            | panic => simp at h
            | ok =>
              simp only at h
              cases hcp : copyToTar twa (fileReads c) .eof with
              | mk o2 twb =>
                rw [hcp] at h
                cases o2 with
                | fail e => simp at h
                | panic => simp at h
                | ok =>
                  simp only [Prod.mk.injEq, true_and] at h
                  obtain ⟨h1, h2⟩ := h
                  subst h1
                  exact ⟨hfin, hc, twa, twb, hwh, hcp, h2.symm⟩

/-! ## The failing exits of the filter loop -/

/-- The loop on sound entries, one of which makes the pattern loop report
an error, the tar writer accepting the kept ones: it ends with the pattern
error of the first such entry, the writer standing between two entries. -/
theorem filterLoop_pattern_error (m : Matcher) (enc : Encoder) (P : List String)
    (xs : List InEntry) (final : ReadEnd) (hvalid : ∀ x ∈ xs, x.Valid)
    (hacc : ∀ x ∈ xs, removeFile m P x.header.Name = .ok false → accepts enc x.header = true)
    (hbad : ∃ x ∈ xs, ∃ e, removeFile m P x.header.Name = .error e) (wr : List Cell) (pad : Nat) :
    ∃ e wr1 pad1, (∃ x ∈ xs, removeFile m P x.header.Name = .error e) ∧
      filterLoop m enc P xs final (openOn wr 0 pad)
        = (.fail (.wrapped "unable to match filename against pattern" e), openOn wr1 0 pad1) := by
  induction xs generalizing wr pad with
  | nil => simp at hbad
  | cons x xs ih =>
    have hx : x.Valid := hvalid x (List.mem_cons_self x xs)
    have hxs : ∀ y ∈ xs, y.Valid := fun y hy => hvalid y (List.mem_cons_of_mem x hy)
    have haccxs : ∀ y ∈ xs, removeFile m P y.header.Name = .ok false →
        accepts enc y.header = true :=
      fun y hy => hacc y (List.mem_cons_of_mem x hy)
    cases hrm : removeFile m P x.header.Name with
    | error e =>
      exact ⟨e, wr, pad, ⟨x, List.mem_cons_self x xs, hrm⟩, by simp [filterLoop, hrm]⟩
    | ok b =>
      have hbad1 : ∃ y ∈ xs, ∃ e, removeFile m P y.header.Name = .error e := by
        obtain ⟨y, hy, e, he⟩ := hbad
        rcases List.mem_cons.mp hy with rfl | hy1
        · rw [hrm] at he; cases he
        · exact ⟨y, hy1, e, he⟩
      cases b with
      | true =>
        obtain ⟨e, wr1, pad1, ⟨y, hy, he⟩, hrun⟩ := ih hxs haccxs hbad1 wr pad
        refine ⟨e, wr1, pad1, ⟨y, List.mem_cons_of_mem x hy, he⟩, ?_⟩
        rw [filterLoop_cons_removed m enc P x xs final _ hx.2.1 hrm]; exact hrun
      | false =>
        obtain ⟨e, wr1, pad1, ⟨y, hy, he⟩, hrun⟩ := ih hxs haccxs hbad1
          (wr ++ zeros pad ++ [Cell.hdr x.header] ++ x.chunks.flatten.map Cell.byte)
          (blockPadding x.header.bodySize)
        refine ⟨e, wr1, pad1, ⟨y, List.mem_cons_of_mem x hy, he⟩, ?_⟩
        rw [filterLoop_cons_kept m enc P x xs final wr pad hx hrm
          (hacc x (List.mem_cons_self x xs) hrm)]
        exact hrun

/-- A run of the loop that ends with a header error or a pattern error, on
entries as the reader delivers them and an output that accepts every write:
the entries before the point of failure are sound, the kept ones were
accepted and written in full, and the writer stands between two entries. -/
theorem filterLoop_failure_kind (m : Matcher) (enc : Encoder) (P : List String)
    (xs : List InEntry) (final : ReadEnd) (msg : String) (e : Error)
    (hcons : ∀ x ∈ xs, x.Consistent)
    (hkind : msg = "unable to read header" ∨ msg = "unable to match filename against pattern")
    (wr : List Cell) (pad : Nat) (tw1 : TarWriter)
    (h : filterLoop m enc P xs final (openOn wr 0 pad) = (.fail (.wrapped msg e), tw1)) :
    ∃ pre rest wr1 pad1, xs = pre ++ rest ∧ tw1 = openOn wr1 0 pad1 ∧
      wr1 ++ zeros pad1 = wr ++ zeros pad ++ encodeEntries (keptEntries m P pre) ∧
      (∀ x ∈ pre, x.Valid) ∧ (∀ x ∈ pre, ∃ b, removeFile m P x.header.Name = .ok b) ∧
      (∀ x ∈ pre, removeFile m P x.header.Name = .ok false → accepts enc x.header = true) ∧
      FailsAt m P msg e rest final := by
  induction xs generalizing wr pad with
  | nil =>
    cases final with
    | eof => simp [filterLoop] at h
    | fail e1 =>
      simp only [filterLoop, Prod.mk.injEq, Outcome.fail.injEq, Error.wrapped.injEq] at h
      obtain ⟨⟨hmsg, he⟩, htw⟩ := h
      subst he
      exact ⟨[], [], wr, pad, rfl, htw.symm, by simp [keptEntries, encodeEntries],
        by simp, by simp, by simp, Or.inl ⟨hmsg.symm, rfl, rfl⟩⟩
  | cons x xs ih =>
    have hx : x.Consistent := hcons x (List.mem_cons_self x xs)
    have hxs : ∀ y ∈ xs, y.Consistent := fun y hy => hcons y (List.mem_cons_of_mem x hy)
    unfold filterLoop at h
    cases hrm : removeFile m P x.header.Name with
    | error e1 =>
      simp only [hrm, Prod.mk.injEq, Outcome.fail.injEq, Error.wrapped.injEq] at h
      obtain ⟨⟨hmsg, he⟩, htw⟩ := h
      subst he
      exact ⟨[], x :: xs, wr, pad, rfl, htw.symm, by simp [keptEntries, encodeEntries],
        by simp, by simp, by simp, Or.inr (Or.inr ⟨hmsg.symm, x, xs, rfl, hrm⟩)⟩
    | ok b =>
      cases b with
      | true =>
        simp only [hrm] at h
        cases hend : x.bodyEnd with
        | fail e1 =>
          simp only [hend, Prod.mk.injEq, Outcome.fail.injEq, Error.wrapped.injEq] at h
          obtain ⟨⟨hmsg, he⟩, htw⟩ := h
          subst he
          exact ⟨[], x :: xs, wr, pad, rfl, htw.symm, by simp [keptEntries, encodeEntries],
            by simp, by simp, by simp, Or.inr (Or.inl ⟨hmsg.symm, x, xs, rfl, hrm, hend⟩)⟩
        | eof =>
          simp only [hend] at h
          obtain ⟨pre, rest, wr1, pad1, hsplit, htw, hout, hv, hr, ha, hf⟩ := ih hxs wr pad h
          refine ⟨x :: pre, rest, wr1, pad1, by simp [hsplit], htw, ?_, ?_, ?_, ?_, hf⟩
          · rw [keptEntries_cons_removed m P x pre hrm]; exact hout
          · intro y hy
            rcases List.mem_cons.mp hy with rfl | hy1
            · exact ⟨hx.1, hend, hx.2 hend⟩
            · exact hv y hy1
          · intro y hy
            rcases List.mem_cons.mp hy with rfl | hy1
            · exact ⟨true, hrm⟩
            · exact hr y hy1
          · intro y hy hk
            rcases List.mem_cons.mp hy with rfl | hy1
            · rw [hrm] at hk; cases hk
            · exact ha y hy1 hk
      | false =>
        simp only [hrm] at h
        have hp : promote x.header = x.header := promote_of_ne _ hx.1
        cases hacc : accepts enc x.header with
        | false =>
          obtain ⟨e1, fatal, hv⟩ := (not_accepts_iff enc x.header).mp hacc
          have href := WriteHeader_openOn_refused enc wr pad x.header e1 fatal hv
          cases hwh : (openOn wr 0 pad).WriteHeader enc x.header with
          | mk o twa =>
            rw [hwh] at href h
            simp only at href
            subst href
            simp only [Prod.mk.injEq, Outcome.fail.injEq, Error.wrapped.injEq] at h
            rcases hkind with rfl | rfl
            · exact absurd h.1.1 (by decide)
            · exact absurd h.1.1 (by decide)
        | true =>
          obtain ⟨extra, hv⟩ := (accepts_iff enc x.header).mp hacc
          have hwh := WriteHeader_openOn enc wr pad x.header extra hv
          rw [hp] at hwh
          rw [hwh] at h
          simp only at h
          cases hcp : copyToTar (openOn (wr ++ zeros pad ++ [Cell.hdr x.header])
              x.header.bodySize (blockPadding x.header.bodySize)) x.chunks x.bodyEnd with
          | mk o2 twb =>
            rw [hcp] at h
            cases o2 with
            | fail e1 =>
              simp only [Prod.mk.injEq, Outcome.fail.injEq, Error.wrapped.injEq] at h
              rcases hkind with rfl | rfl
              · exact absurd h.1.1 (by decide)
              · exact absurd h.1.1 (by decide)
            | panic => simp at h
            | ok =>
              simp only at h
              obtain ⟨hfin, hle, _⟩ := copyToTar_ok x.chunks x.bodyEnd _ _ _ twb hcp
              have hsz := hx.2 hfin
              have hxv : x.Valid := ⟨hx.1, hfin, hsz⟩
              have hcp2 := copyToTar_openOn x.chunks (wr ++ zeros pad ++ [Cell.hdr x.header])
                x.header.bodySize (blockPadding x.header.bodySize) hle
              rw [hfin] at hcp
              rw [hcp2, hsz, Nat.sub_self] at hcp
              simp only [Prod.mk.injEq, true_and] at hcp
              subst hcp
              obtain ⟨pre, rest, wr1, pad1, hsplit, htw, hout, hv1, hr, ha, hf⟩ := ih hxs _ _ h
              refine ⟨x :: pre, rest, wr1, pad1, by simp [hsplit], htw, ?_, ?_, ?_, ?_, hf⟩
              · rw [keptEntries_cons_kept m P x pre hrm, hout, ← hsz]
                simp [encodeEntries, encodeEntry, InEntry.toEntry, List.append_assoc]
              · intro y hy
                rcases List.mem_cons.mp hy with rfl | hy1
                · exact hxv
                · exact hv1 y hy1
              · intro y hy
                rcases List.mem_cons.mp hy with rfl | hy1
                · exact ⟨false, hrm⟩
                · exact hr y hy1
              · intro y hy hk
                rcases List.mem_cons.mp hy with rfl | hy1
                · exact hacc
                · exact ha y hy1 hk

theorem removeFile_false_iff (m : Matcher) (P : List String) (name : String) :
    removeFile m P name = .ok false ↔ ∀ p ∈ P, m p name = .ok false := by
  induction P with
  | nil => simp [removeFile]
  | cons a as ih =>
    cases ha : m a name with
    | error e => simp [removeFile, ha]
    | ok b =>
      cases b with
      | true => simp [removeFile, ha]
      | false => simp [removeFile, ha, ih]

/-! ## Claims on `FilterTARArchive` -/

/-- Counterexample to C1: a valid archive that holds the regular file `x/`
after `first/testfile`, filtered with the well-formed pattern `second/*`.
No pattern matches `x/`, yet the entry is not in the output and the call does
not return nil: the tar writer refuses the header, and the call returns
"unable to write header: ... filename may not have trailing slash". -/
theorem FilterTARArchive_refuses_kept_trailing_slash :
    ({ entries := [firstFile, slashFile], final := .eof } : TarInput).Valid ∧
    (∀ p ∈ ["second/*"], ∀ x ∈ [firstFile, slashFile],
      ∃ b, filepathMatch p x.header.Name = .ok b) ∧
    matchesAny filepathMatch ["second/*"] slashFile.header.Name = false ∧
    (FilterTARArchive filepathMatch singleBlock
        (some { entries := [firstFile, slashFile], final := .eof }) (some Sink.fresh)
        ["second/*"]).1
      = .fail (.wrapped "unable to write header"
          (.headerError "filename may not have trailing slash")) := by
  refine ⟨by decide, by decide, by decide, by decide⟩

/-- C1, amended: exclusion correctness of `FilterTARArchive` for entries the
tar writer accepts.  For a valid input archive and patterns that report no
error on the entry names (well-formed patterns), when the tar writer accepts
the header of every entry that no pattern matches, with an output that
accepts every write, the call returns nil and the output reads back as
exactly the entries whose name no pattern matches: they form a subsequence
of the input entries (nothing added, renamed or reordered), and an input
entry is among them iff no pattern matches its name. -/
theorem FilterTARArchive_exclusion (m : Matcher) (enc : Encoder) (inp : TarInput)
    (P : List String) (hvalid : inp.Valid)
    (hwf : ∀ p ∈ P, ∀ x ∈ inp.entries, ∃ b, m p x.header.Name = .ok b)
    (hacc : ∀ x ∈ inp.entries, matchesAny m P x.header.Name = false →
      accepts enc x.header = true) :
    ∃ out : Sink,
      FilterTARArchive m enc (some inp) (some Sink.fresh) P = (.ok, some out) ∧
      decodeArchive out.written = some (unmatchedEntries m P inp.entries) ∧
      (unmatchedEntries m P inp.entries).Sublist (inp.entries.map InEntry.toEntry) ∧
      ∀ x ∈ inp.entries,
        (x.toEntry ∈ unmatchedEntries m P inp.entries ↔ ∀ p ∈ P, m p x.header.Name ≠ .ok true) := by
  obtain ⟨xs, final⟩ := inp
  obtain ⟨hv, hfin⟩ := hvalid
  simp only at hv hfin hwf hacc ⊢
  subst hfin
  have hres := removeFile_results_of_patterns m P xs hwf
  have hacc1 : ∀ x ∈ xs, removeFile m P x.header.Name = .ok false →
      accepts enc x.header = true := by
    intro x hx hk
    rw [removeFile_of_results m x.header.Name P (fun p hp => hwf p hp x hx)] at hk
    exact hacc x hx (by simpa using hk)
  refine ⟨_, FilterTARArchive_sound_entries m enc P xs .eof hv hres hacc1, ?_, ?_, ?_⟩
  · simp only
    rw [decodeArchive_encodeArchive _ (keptEntries_sound m P xs hv),
      keptEntries_eq_unmatched m P xs hwf]
  · exact List.Sublist.map _ (List.filter_sublist _)
  · intro x hx
    rw [← matchesAny_eq_false_iff]
    simp only [unmatchedEntries, List.mem_map, List.mem_filter, Bool.not_eq_true']
    constructor
    · rintro ⟨y, ⟨_, hy⟩, hxy⟩
      have hh : y.header = x.header := congrArg Entry.header hxy
      rw [← hh]; exact hy
    · intro h
      exact ⟨x, ⟨hx, h⟩, rfl⟩

/-- Witness of the amended C1: the test "should filter archive". -/
theorem FilterTARArchive_exclusion_witness :
    testArchive.Valid ∧
    ∃ out : Sink,
      FilterTARArchive filepathMatch singleBlock (some testArchive) (some Sink.fresh) ["second/*"]
        = (.ok, some out) ∧
      decodeArchive out.written = some [firstFile.toEntry] := by
  have hv : testArchive.Valid := by decide
  obtain ⟨out, h1, h2, _⟩ :=
    FilterTARArchive_exclusion filepathMatch singleBlock testArchive ["second/*"] hv
      (by decide) (by decide)
  refine ⟨hv, out, h1, ?_⟩
  rw [h2]
  decide

/-- Counterexample to C4: the valid archive whose one entry is the regular
file `x/`, filtered with the empty pattern list.  The call does not return
nil: the tar writer refuses the header of the entry, and the call returns
"unable to write header: ... filename may not have trailing slash". -/
theorem FilterTARArchive_no_patterns_refuses_trailing_slash :
    ({ entries := [slashFile], final := .eof } : TarInput).Valid ∧
    accepts singleBlock slashFile.header = false ∧
    (FilterTARArchive filepathMatch singleBlock
        (some { entries := [slashFile], final := .eof }) (some Sink.fresh) []).1
      = .fail (.wrapped "unable to write header"
          (.headerError "filename may not have trailing slash")) := by
  refine ⟨by decide, by decide, by decide⟩

/-- C4, amended: round trip of `FilterTARArchive` without patterns, for
entries the tar writer accepts.  For every valid input archive, the archive
without entries included, whose every header the tar writer accepts, the call
with an empty pattern list returns nil and the output reads back as the same
sequence of entries, each with its header (name, size) and its body bytes;
for the archive without entries the output is the end-of-archive marker
alone. -/
theorem FilterTARArchive_no_patterns_roundtrip (m : Matcher) (enc : Encoder) (inp : TarInput)
    (hvalid : inp.Valid) (hacc : ∀ x ∈ inp.entries, accepts enc x.header = true) :
    ∃ out : Sink,
      FilterTARArchive m enc (some inp) (some Sink.fresh) [] = (.ok, some out) ∧
      decodeArchive out.written = some (inp.entries.map InEntry.toEntry) ∧
      (inp.entries = [] → out.written = trailer) := by
  obtain ⟨xs, final⟩ := inp
  obtain ⟨hv, hfin⟩ := hvalid
  simp only at hv hfin hacc ⊢
  subst hfin
  have hres : ∀ x ∈ xs, ∃ b, removeFile m [] x.header.Name = .ok b :=
    fun x _ => ⟨false, rfl⟩
  have hkept : keptEntries m [] xs = xs.map InEntry.toEntry := by
    simp [keptEntries, removeFile]
  refine ⟨_, FilterTARArchive_sound_entries m enc [] xs .eof hv hres
    (fun x hx _ => hacc x hx), ?_, ?_⟩
  · simp only
    rw [decodeArchive_encodeArchive _ (keptEntries_sound m [] xs hv), hkept]
  · intro hnil
    subst hnil
    simp [keptEntries, encodeArchive, encodeEntries]

/-- Witness of the amended C4: the archive without entries, the archive of
the test, and an archive with a hard link whose header declares a size. -/
theorem FilterTARArchive_no_patterns_roundtrip_witness :
    emptyArchive.Valid ∧ testArchive.Valid ∧
    ({ entries := [firstFile, linkFile], final := .eof } : TarInput).Valid ∧
    (∃ out : Sink,
      FilterTARArchive filepathMatch singleBlock (some emptyArchive) (some Sink.fresh) []
        = (.ok, some out) ∧
      decodeArchive out.written = some [] ∧ out.written = trailer) ∧
    (∃ out : Sink,
      FilterTARArchive filepathMatch singleBlock (some testArchive) (some Sink.fresh) []
        = (.ok, some out) ∧
      decodeArchive out.written = some (testArchive.entries.map InEntry.toEntry)) ∧
    (∃ out : Sink,
      FilterTARArchive filepathMatch singleBlock
          (some { entries := [firstFile, linkFile], final := .eof }) (some Sink.fresh) []
        = (.ok, some out) ∧
      decodeArchive out.written = some [firstFile.toEntry, linkFile.toEntry]) := by
  have hv0 : emptyArchive.Valid := by decide
  have hv1 : testArchive.Valid := by decide
  have hv2 : ({ entries := [firstFile, linkFile], final := .eof } : TarInput).Valid := by decide
  obtain ⟨out0, a0, b0, c0⟩ :=
    FilterTARArchive_no_patterns_roundtrip filepathMatch singleBlock emptyArchive hv0 (by decide)
  obtain ⟨out1, a1, b1, _⟩ :=
    FilterTARArchive_no_patterns_roundtrip filepathMatch singleBlock testArchive hv1 (by decide)
  obtain ⟨out2, a2, b2, _⟩ :=
    FilterTARArchive_no_patterns_roundtrip filepathMatch singleBlock
      { entries := [firstFile, linkFile], final := .eof } hv2 (by decide)
  exact ⟨hv0, hv1, hv2, ⟨out0, a0, b0, c0 rfl⟩, ⟨out1, a1, b1⟩, ⟨out2, a2, b2⟩⟩

/-- Counterexample to C9: the first entry, the regular file `x/`, decodes
and is matched by no pattern, and the header read after it fails with
"unexpected EOF".  The call does not return "unable to read header": the
tar writer refuses the header of `x/` first, the call returns
"unable to write header: ..." and the failing header read is never made. -/
theorem FilterTARArchive_write_error_before_header_error :
    (∀ x ∈ [slashFile], x.Valid) ∧
    (∀ p ∈ ["second/*"], ∀ x ∈ [slashFile], ∃ b, filepathMatch p x.header.Name = .ok b) ∧
    (FilterTARArchive filepathMatch singleBlock
        (some { entries := [slashFile], final := .fail (.failure "unexpected EOF") })
        (some Sink.fresh) ["second/*"]).1
      = .fail (.wrapped "unable to write header"
          (.headerError "filename may not have trailing slash")) := by
  refine ⟨by decide, by decide, by decide⟩

/-- C9, amended: decode failure in `FilterTARArchive` after entries the tar
writer accepts.  When the first entries of the input are sound, the tar
writer accepts the header of every one of them that no pattern matches, and
the header read after them fails with an error `e` other than `io.EOF`, then
for patterns that report no error on the entry names, the output accepting
every write, the call returns the error "unable to read header: ..."
wrapping `e` (never nil), and what was written is, in input order, exactly
the entries among the first ones whose name no pattern matches (followed by
the marker of the deferred close); when the header read signals `io.EOF`
instead, the call returns nil. -/
theorem FilterTARArchive_header_decode_failure (m : Matcher) (enc : Encoder)
    (first : List InEntry) (e : Error) (P : List String) (hfirst : ∀ x ∈ first, x.Valid)
    (hwf : ∀ p ∈ P, ∀ x ∈ first, ∃ b, m p x.header.Name = .ok b)
    (hacc : ∀ x ∈ first, matchesAny m P x.header.Name = false → accepts enc x.header = true) :
    (∃ out : Sink,
      FilterTARArchive m enc (some { entries := first, final := .fail e }) (some Sink.fresh) P
        = (.fail (.wrapped "unable to read header" e), some out) ∧
      out.written = encodeEntries (unmatchedEntries m P first) ++ trailer) ∧
    (Error.wrapped "unable to read header" e).message = "unable to read header: " ++ e.message ∧
    (∃ out : Sink,
      FilterTARArchive m enc (some { entries := first, final := .eof }) (some Sink.fresh) P
        = (.ok, some out)) := by
  have hres := removeFile_results_of_patterns m P first hwf
  have hacc1 : ∀ x ∈ first, removeFile m P x.header.Name = .ok false →
      accepts enc x.header = true := by
    intro x hx hk
    rw [removeFile_of_results m x.header.Name P (fun p hp => hwf p hp x hx)] at hk
    exact hacc x hx (by simpa using hk)
  refine ⟨⟨_, FilterTARArchive_sound_entries m enc P first (.fail e) hfirst hres hacc1, ?_⟩, rfl,
    ⟨_, FilterTARArchive_sound_entries m enc P first .eof hfirst hres hacc1⟩⟩
  simp only [encodeArchive, keptEntries_eq_unmatched m P first hwf]

/-- Witness of the amended C9: the entries of the test archive, then a
failing header read. -/
theorem FilterTARArchive_header_decode_failure_witness :
    (∀ x ∈ testArchive.entries, x.Valid) ∧
    (∃ out : Sink,
      FilterTARArchive filepathMatch singleBlock
          (some { entries := testArchive.entries, final := .fail (.failure "unexpected EOF") })
          (some Sink.fresh) ["second/*"]
        = (.fail (.wrapped "unable to read header" (.failure "unexpected EOF")), some out) ∧
      out.written = encodeEntries [firstFile.toEntry] ++ trailer) := by
  have hv : ∀ x ∈ testArchive.entries, x.Valid := by decide
  obtain ⟨⟨out, h1, h2⟩, _, _⟩ :=
    FilterTARArchive_header_decode_failure filepathMatch singleBlock testArchive.entries
      (.failure "unexpected EOF") ["second/*"] hv (by decide) (by decide)
  refine ⟨hv, out, h1, ?_⟩
  rw [h2]
  have hk : unmatchedEntries filepathMatch ["second/*"] testArchive.entries
      = [firstFile.toEntry] := by decide
  rw [hk]

/-- C10: `FilterTARArchive` finalizes the output on failing exits too.
Whenever the call, on entries as `tar.Reader` delivers them and an output
that accepts every write, fails with a header error ("unable to read
header") or a pattern error ("unable to match filename against pattern"),
the input splits at the point of failure into the entries `pre` before it
and the rest, and the output is the complete archive of the kept entries of
`pre`, end-of-archive marker included: it reads back as exactly those
entries, and it is the very output of the successful call on the input that
ends cleanly after `pre`, so that the returned error is the only signal of
the failure. -/
theorem FilterTARArchive_failing_exit_finalized (m : Matcher) (enc : Encoder) (P : List String)
    (inp : TarInput) (msg : String) (e : Error) (out : Option Sink)
    (hcons : ∀ x ∈ inp.entries, x.Consistent)
    (hkind : msg = "unable to read header" ∨ msg = "unable to match filename against pattern")
    (hfail : FilterTARArchive m enc (some inp) (some Sink.fresh) P
      = (.fail (.wrapped msg e), out)) :
    ∃ pre rest, inp.entries = pre ++ rest ∧ FailsAt m P msg e rest inp.final ∧
      out = some { written := encodeEntries (keptEntries m P pre) ++ trailer, budget := none } ∧
      decodeArchive (encodeEntries (keptEntries m P pre) ++ trailer)
        = some (keptEntries m P pre) ∧
      FilterTARArchive m enc (some { entries := pre, final := .eof }) (some Sink.fresh) P
        = (.ok, out) := by
  cases hloop : filterLoop m enc P inp.entries inp.final (openOn [] 0 0) with
  | mk res tw1 =>
    have hres : res = .fail (.wrapped msg e) := by
      simp only [FilterTARArchive, NewWriter_fresh, hloop] at hfail
      cases hc : tw1.Close.1 <;> rw [hc] at hfail <;> simp at hfail
      · exact hfail.1
      · exact hfail.1
    subst hres
    obtain ⟨pre, rest, wr1, pad1, hsplit, htw, hout, hv, hr, ha, hf⟩ :=
      filterLoop_failure_kind m enc P inp.entries inp.final msg e hcons hkind [] 0 tw1 hloop
    subst htw
    have hcall := FilterTARArchive_of_loop m enc P inp _ wr1 pad1 hloop
    rw [hfail] at hcall
    simp only [zeros, List.replicate_zero, List.append_nil, List.nil_append] at hout
    have hout1 : out
        = some { written := encodeEntries (keptEntries m P pre) ++ trailer, budget := none } := by
      have := (Prod.mk.injEq _ _ _ _ ▸ hcall).2
      rw [this]
      simp only [zeros] at hout ⊢
      rw [hout]
    refine ⟨pre, rest, hsplit, hf, hout1, ?_, ?_⟩
    · exact decodeArchive_encodeArchive _ (keptEntries_sound m P pre hv)
    · rw [hout1]
      exact FilterTARArchive_sound_entries m enc P pre .eof hv hr ha

/-- Witness of C10: the first entry of the test archive is kept and the
header read after it fails; and with the patterns `first/*`, `[` the first
entry is removed and the second one meets the malformed pattern. -/
theorem FilterTARArchive_failing_exit_finalized_witness :
    (∀ x ∈ [firstFile], x.Consistent) ∧ (∀ x ∈ testArchive.entries, x.Consistent) ∧
    (∃ pre rest, [firstFile] = pre ++ rest ∧
      FailsAt filepathMatch ["second/*"] "unable to read header" (.failure "unexpected EOF")
        rest (.fail (.failure "unexpected EOF")) ∧
      (FilterTARArchive filepathMatch singleBlock
          (some { entries := [firstFile], final := .fail (.failure "unexpected EOF") })
          (some Sink.fresh) ["second/*"]).2
        = some { written := encodeEntries (keptEntries filepathMatch ["second/*"] pre) ++ trailer,
                 budget := none } ∧
      decodeArchive (encodeEntries (keptEntries filepathMatch ["second/*"] pre) ++ trailer)
        = some (keptEntries filepathMatch ["second/*"] pre)) ∧
    (∃ pre rest, testArchive.entries = pre ++ rest ∧
      FailsAt filepathMatch ["first/*", "["] "unable to match filename against pattern"
        .errBadPattern rest .eof ∧
      (FilterTARArchive filepathMatch singleBlock (some testArchive) (some Sink.fresh)
          ["first/*", "["]).2
        = some { written :=
                   encodeEntries (keptEntries filepathMatch ["first/*", "["] pre) ++ trailer,
                 budget := none }) := by
  have hc1 : ∀ x ∈ [firstFile], x.Consistent := by decide
  have hc2 : ∀ x ∈ testArchive.entries, x.Consistent := by decide
  obtain ⟨pre1, rest1, a1, b1, c1, d1, _⟩ :=
    FilterTARArchive_failing_exit_finalized filepathMatch singleBlock ["second/*"]
      { entries := [firstFile], final := .fail (.failure "unexpected EOF") }
      "unable to read header" (.failure "unexpected EOF") _ hc1 (Or.inl rfl)
      (Prod.ext (by decide) rfl)
  obtain ⟨pre2, rest2, a2, b2, c2, _, _⟩ :=
    FilterTARArchive_failing_exit_finalized filepathMatch singleBlock ["first/*", "["]
      testArchive "unable to match filename against pattern" .errBadPattern _ hc2 (Or.inr rfl)
      (Prod.ext (by decide) rfl)
  exact ⟨hc1, hc2, ⟨pre1, rest1, a1, b1, c1, d1⟩, ⟨pre2, rest2, a2, b2, c2⟩⟩

/-- Counterexample to C6: the call returns nil although the pattern list
holds a malformed pattern.  The pattern `[` is malformed (`Match` reports
`ErrBadPattern` for it on every name), yet the call returns nil on the test
archive with the patterns `*/*`, `[`, where every entry is removed by the
first pattern, and on the archive without entries with the pattern `[`.  The
pattern `a*[` is malformed too (`Match` reports `ErrBadPattern` for it on the
name `a`), yet `Match` reports no match, without error, on every name of the
test archive, and the call with this one pattern returns nil and keeps
every entry. -/
theorem unreached_malformed_pattern_accepted :
    (∀ name : String, filepathMatch "[" name = .error .errBadPattern) ∧
    testArchive.Valid ∧ emptyArchive.Valid ∧
    (FilterTARArchive filepathMatch singleBlock (some testArchive) (some Sink.fresh)
      ["*/*", "["]).1 = .ok ∧
    (FilterTARArchive filepathMatch singleBlock (some emptyArchive) (some Sink.fresh)
      ["["]).1 = .ok ∧
    filepathMatch "a*[" "a" = .error .errBadPattern ∧
    (∀ x ∈ testArchive.entries, filepathMatch "a*[" x.header.Name = .ok false) ∧
    (FilterTARArchive filepathMatch singleBlock (some testArchive) (some Sink.fresh)
      ["a*["]).1 = .ok ∧
    keptEntries filepathMatch ["a*["] testArchive.entries
      = testArchive.entries.map InEntry.toEntry := by
  refine ⟨fun _ => rfl, by decide, by decide, by decide, by decide, by decide, by decide,
    by decide, by decide⟩

/-- C6, amended: a pattern fails the call exactly when `Match` reports an
error while it is evaluated on the name of an entry.  For a valid input
archive whose kept entries the tar writer accepts, the output accepting
every write: if on the name of some entry the pattern loop meets an error,
the call returns the error "unable to match filename against pattern: ..."
wrapping the error met on an entry; if on every name the pattern loop ends
without error, the call returns nil and the output is the archive of the
kept entries.  The pattern loop meets an error on a name exactly when some
pattern of the list reports it on that name and every pattern before it
reports no match on that name; an entry is kept exactly when every pattern
reports no match, without error, on its name.  So a malformed pattern that
stands behind a matching pattern for every entry, or that stands in the list
for an archive without entries, or on which `Match` reports no error for the
names of the archive, does not fail the call. -/
theorem FilterTARArchive_malformed_pattern (m : Matcher) (enc : Encoder) (inp : TarInput)
    (P : List String) (hvalid : inp.Valid)
    (hacc : ∀ x ∈ inp.entries, removeFile m P x.header.Name = .ok false →
      accepts enc x.header = true) :
    ((∃ x ∈ inp.entries, ∃ e, removeFile m P x.header.Name = .error e) →
      ∃ (e : Error) (out : Sink),
        (∃ x ∈ inp.entries, removeFile m P x.header.Name = .error e) ∧
        FilterTARArchive m enc (some inp) (some Sink.fresh) P
          = (.fail (.wrapped "unable to match filename against pattern" e), some out)) ∧
    ((∀ x ∈ inp.entries, ∃ b, removeFile m P x.header.Name = .ok b) →
      FilterTARArchive m enc (some inp) (some Sink.fresh) P
        = (.ok, some { written := encodeArchive (keptEntries m P inp.entries),
                       budget := none })) ∧
    (∀ (name : String) (e : Error), removeFile m P name = .error e ↔
      ∃ pre p post, P = pre ++ p :: post ∧ (∀ q ∈ pre, m q name = .ok false) ∧
        m p name = .error e) ∧
    (∀ name : String, removeFile m P name = .ok false ↔ ∀ p ∈ P, m p name = .ok false) := by
  obtain ⟨xs, final⟩ := inp
  obtain ⟨hv, hfin⟩ := hvalid
  simp only at hv hfin hacc ⊢
  subst hfin
  refine ⟨?_, ?_, fun name e => removeFile_error_iff m P name e,
    fun name => removeFile_false_iff m P name⟩
  · intro hbad
    obtain ⟨e, wr1, pad1, hy, hrun⟩ := filterLoop_pattern_error m enc P xs .eof hv hacc hbad [] 0
    exact ⟨e, _, hy, FilterTARArchive_of_loop m enc P ⟨xs, .eof⟩ _ wr1 pad1 hrun⟩
  · intro hres
    exact FilterTARArchive_sound_entries m enc P xs .eof hv hres hacc

/-- Witness of the amended C6: on the test archive the patterns `second/*`,
`[` fail the call at the first entry; the patterns `*/*`, `[` do not, and
neither does the pattern `a*[`. -/
theorem FilterTARArchive_malformed_pattern_witness :
    testArchive.Valid ∧
    (∃ (e : Error) (out : Sink),
      FilterTARArchive filepathMatch singleBlock (some testArchive) (some Sink.fresh)
          ["second/*", "["]
        = (.fail (.wrapped "unable to match filename against pattern" e), some out)) ∧
    FilterTARArchive filepathMatch singleBlock (some testArchive) (some Sink.fresh) ["*/*", "["]
      = (.ok, some { written := encodeArchive [], budget := none }) ∧
    FilterTARArchive filepathMatch singleBlock (some testArchive) (some Sink.fresh) ["a*["]
      = (.ok, some { written := encodeArchive (testArchive.entries.map InEntry.toEntry),
                     budget := none }) := by
  have hv : testArchive.Valid := by decide
  have h1 := FilterTARArchive_malformed_pattern filepathMatch singleBlock testArchive
    ["second/*", "["] hv (by decide)
  have h2 := FilterTARArchive_malformed_pattern filepathMatch singleBlock testArchive
    ["*/*", "["] hv (by decide)
  have h3 := FilterTARArchive_malformed_pattern filepathMatch singleBlock testArchive
    ["a*["] hv (by decide)
  obtain ⟨e, out, _, hrun⟩ := h1.1 ⟨firstFile, by decide, .errBadPattern, by decide⟩
  have hk2 : keptEntries filepathMatch ["*/*", "["] testArchive.entries = [] := by decide
  have hk3 : keptEntries filepathMatch ["a*["] testArchive.entries
      = testArchive.entries.map InEntry.toEntry := by decide
  refine ⟨hv, ⟨e, out, hrun⟩, ?_, ?_⟩
  · rw [← hk2]; exact h2.2.1 (by decide)
  · rw [← hk3]; exact h3.2.1 (by decide)

theorem copyToFile_unbounded (chunks : List (List Byte)) (acc : List Byte) :
    copyToFile none acc chunks .eof = (none, acc ++ chunks.flatten) := by
  induction chunks generalizing acc with
  | nil => simp [copyToFile]
  | cons c cs ih =>
    unfold copyToFile
    by_cases hc : c.length > 0
    · simp only [hc, if_true, ih]
      simp
    · have hnil : c = [] := by
        cases c with
        | nil => rfl
        | cons x xs => simp at hc
      subst hnil
      simp [ih]

/-- Without failures of the operating system, for a reader that ends with
`io.EOF`, a name without trailing slash whose header the tar writer accepts,
and an open writer on an output that accepts every write, the call returns
nil, whatever the content. -/
theorem WriteFileToTARArchive_succeeds (enc : Encoder) (fs : FileSystem) (now : Nat)
    (N : String) (rd : ContentReader) (wr : List Cell) (pad : Nat) (extra : Nat)
    (hfin : rd.fin = .eof) (hN : endsWithSlash N = false)
    (hacc : headerVerdict enc (promote (fileHeader N rd.chunks.flatten.length now))
      = .accept extra) :
    (WriteFileToTARArchive enc fs Faults.none now N (some rd) (some (openOn wr 0 pad))).outcome
      = .ok := by
  have hwh := WriteHeader_openOn enc wr pad (fileHeader N rd.chunks.flatten.length now) extra hacc
  have hbs : (promote (fileHeader N rd.chunks.flatten.length now)).bodySize
      = rd.chunks.flatten.length := by
    simp [promote, fileHeader, hN, Header.bodySize, isHeaderOnlyType, TypeRegA, TypeReg,
      TypeLink, TypeSymlink, TypeChar, TypeBlock, TypeDir, TypeFifo]
  rw [hbs] at hwh
  have hcopy := copyToTar_openOn (fileReads rd.chunks.flatten)
    (wr ++ zeros pad ++ [Cell.hdr (promote (fileHeader N rd.chunks.flatten.length now))])
    rd.chunks.flatten.length (blockPadding rd.chunks.flatten.length)
    (by rw [fileReads_flatten])
  simp only [WriteFileToTARArchive, Faults.none, appendBody, hfin, copyToFile_unbounded,
    List.nil_append, hwh, hcopy]

/-- C2: append correctness of `WriteFileToTARArchive`.  For a non-empty
name `N`, a content reader that delivers the bytes `B` (none included) and an
open tar writer that holds the sound entries `ps`: when the call returns nil,
the writer it leaves is still open and holds `ps` followed by one entry named
`N` with declared size `len(B)` and body `B`, what was written before the
call staying in front; and when that writer is then closed successfully, the
output is the layout of these entries followed at once by the end-of-archive
marker, and it reads back as exactly these entries. -/
theorem WriteFileToTARArchive_append (enc : Encoder) (fs : FileSystem) (faults : Faults)
    (now : Nat) (N : String) (rd : ContentReader) (tw : TarWriter) (ps : List Entry)
    (_hN : N ≠ "") (hps : ∀ p ∈ ps, p.Sound) (hopen : tw.Holds ps)
    (hok : (WriteFileToTARArchive enc fs faults now N (some rd) (some tw)).outcome = .ok) :
    rd.fin = .eof ∧
    (appendedEntry N now rd.chunks.flatten).header.Name = N ∧
    (appendedEntry N now rd.chunks.flatten).header.Size = rd.chunks.flatten.length ∧
    (appendedEntry N now rd.chunks.flatten).body = rd.chunks.flatten ∧
    ∃ tw1, (WriteFileToTARArchive enc fs faults now N (some rd) (some tw)).tw = some tw1 ∧
      tw1.Holds (ps ++ [appendedEntry N now rd.chunks.flatten]) ∧
      (∃ s s1, tw.w = some s ∧ tw1.w = some s1 ∧ s.written <+: s1.written) ∧
      ∀ tw2, tw1.Close = (.ok, tw2) →
        ∃ s2, tw2.w = some s2 ∧
          s2.written
            = encodeEntries ps ++ encodeEntry (appendedEntry N now rd.chunks.flatten) ++ trailer ∧
          decodeArchive s2.written = some (ps ++ [appendedEntry N now rd.chunks.flatten]) := by
  unfold WriteFileToTARArchive at hok ⊢
  cases hcreate : faults.create with
  | some e => simp [hcreate] at hok
  | none =>
    simp only [hcreate] at hok ⊢
    cases hbody : appendBody enc faults now N (some rd) (some tw) with
    | mk o rest =>
      obtain ⟨content, otw⟩ := rest
      rw [hbody] at hok
      simp only at hok ⊢
      subst hok
      obtain ⟨hfin, hc, twa, twb, hwh, hcp, hotw⟩ :=
        appendBody_ok enc faults now N rd tw content _ hbody
      subst hotw
      obtain ⟨herr, hnb, s, hs, hlay⟩ := hopen
      obtain ⟨_, _, s0, sa, hs0, htwa, hwa⟩ := WriteHeader_ok enc tw twa _ hwh
      rw [hs] at hs0
      simp only [Option.some.injEq] at hs0
      subst hs0
      rw [htwa] at hcp
      obtain ⟨_, hle, sb, htwb, hwb⟩ := copyToTar_ok (fileReads content) .eof sa _ _ twb hcp
      rw [fileReads_flatten] at htwb hwb hle
      have hsize : (promote (fileHeader N content.length now)).Size = content.length := by
        unfold promote fileHeader
        split <;> rfl
      have hname : (promote (fileHeader N content.length now)).Name = N := by
        unfold promote fileHeader
        split <;> rfl
      have hbs : (promote (fileHeader N content.length now)).bodySize = content.length := by
        have := bodySize_le_size (promote (fileHeader N content.length now))
        rw [hsize] at this
        omega
      rw [hbs] at htwb
      simp only [Nat.sub_self] at htwb
      have hlay1 : sb.written ++ zeros (blockPadding content.length)
          = encodeEntries (ps ++ [appendedEntry N now rd.chunks.flatten]) := by
        rw [encodeEntries_append, hwb, hwa, hlay, ← hc]
        simp [encodeEntries, encodeEntry, appendedEntry, List.append_assoc, hbs]
      have hsound : ∀ p ∈ ps ++ [appendedEntry N now rd.chunks.flatten], p.Sound := by
        intro p hp
        rcases List.mem_append.mp hp with h1 | h1
        · exact hps p h1
        · simp only [List.mem_singleton] at h1
          subst h1
          rw [← hc]
          exact hbs
      refine ⟨hfin, by rw [← hc]; exact hname, by rw [← hc]; exact hsize, rfl, twb, rfl,
        ?_, ?_, ?_⟩
      · rw [htwb]
        exact ⟨rfl, rfl, sb, rfl, hlay1⟩
      · refine ⟨s, sb, hs, by rw [htwb], ?_⟩
        rw [hwb, hwa, List.append_assoc, List.append_assoc]
        exact List.prefix_append _ _
      · intro tw2 hclose
        rw [htwb] at hclose
        obtain ⟨_, s2, hs2, hw2⟩ := Close_ok sb 0 _ tw2 hclose
        refine ⟨s2, hs2, ?_, ?_⟩
        · rw [hw2, hlay1, encodeEntries_append]
          simp [encodeEntries]
        · rw [hw2, hlay1]
          exact decodeArchive_encodeArchive _ hsound

/-- Witness of C2: the tests "should write file" and "should write empty
file": a fresh archive, the name `testfile`, the content `testcontent`,
respectively no content. -/
theorem WriteFileToTARArchive_append_witness :
    (∃ tw1 tw2 s2,
      (WriteFileToTARArchive singleBlock noTemps Faults.none 0 "testfile" (some testBody)
          (some (NewWriter (some Sink.fresh)))).tw = some tw1 ∧
      tw1.Close = (.ok, tw2) ∧ tw2.w = some s2 ∧
      decodeArchive s2.written
        = some [{ header := { Typeflag := TypeReg, Name := "testfile", Size := 11, Mode := 0o600, ModTime := 0 },
                  body := testContent }]) ∧
    (∃ tw1 tw2 s2,
      (WriteFileToTARArchive singleBlock noTemps Faults.none 0 "testfile" (some emptyBody)
          (some (NewWriter (some Sink.fresh)))).tw = some tw1 ∧
      tw1.Close = (.ok, tw2) ∧ tw2.w = some s2 ∧
      decodeArchive s2.written
        = some [{ header := { Typeflag := TypeReg, Name := "testfile", Size := 0, Mode := 0o600, ModTime := 0 },
                  body := [] }]) := by
  have hopen : (NewWriter (some Sink.fresh)).Holds [] := ⟨rfl, rfl, Sink.fresh, rfl, rfl⟩
  constructor
  · obtain ⟨_, _, _, _, tw1, h1, _, _, h4⟩ :=
      WriteFileToTARArchive_append singleBlock noTemps Faults.none 0 "testfile" testBody
        (NewWriter (some Sink.fresh)) [] (by decide) (by simp) hopen (by decide)
    have hform : (WriteFileToTARArchive singleBlock noTemps Faults.none 0 "testfile" (some testBody)
        (some (NewWriter (some Sink.fresh)))).tw
        = some (openOn (Cell.hdr { Typeflag := TypeReg, Name := "testfile", Size := 11, Mode := 0o600, ModTime := 0 }
            :: testContent.map Cell.byte) 0 (blockPadding 11)) := by decide
    have htw1 : tw1 = openOn (Cell.hdr { Typeflag := TypeReg, Name := "testfile", Size := 11, Mode := 0o600, ModTime := 0 }
            :: testContent.map Cell.byte) 0 (blockPadding 11) := by
      rw [h1] at hform
      exact Option.some.inj hform
    have hclose := Close_openOn (Cell.hdr { Typeflag := TypeReg, Name := "testfile", Size := 11, Mode := 0o600, ModTime := 0 }
            :: testContent.map Cell.byte) (blockPadding 11)
    rw [← htw1] at hclose
    obtain ⟨s2, hs2, _, hdec⟩ := h4 _ hclose
    exact ⟨tw1, _, s2, h1, hclose, hs2, hdec⟩
  · obtain ⟨_, _, _, _, tw1, h1, _, _, h4⟩ :=
      WriteFileToTARArchive_append singleBlock noTemps Faults.none 0 "testfile" emptyBody
        (NewWriter (some Sink.fresh)) [] (by decide) (by simp) hopen (by decide)
    have hform : (WriteFileToTARArchive singleBlock noTemps Faults.none 0 "testfile" (some emptyBody)
        (some (NewWriter (some Sink.fresh)))).tw
        = some (openOn [Cell.hdr { Typeflag := TypeReg, Name := "testfile", Size := 0, Mode := 0o600, ModTime := 0 }]
            0 (blockPadding 0)) := by decide
    have htw1 : tw1 = openOn [Cell.hdr { Typeflag := TypeReg, Name := "testfile", Size := 0, Mode := 0o600, ModTime := 0 }]
            0 (blockPadding 0) := by
      rw [h1] at hform
      exact Option.some.inj hform
    have hclose := Close_openOn [Cell.hdr { Typeflag := TypeReg, Name := "testfile", Size := 0, Mode := 0o600, ModTime := 0 }]
            (blockPadding 0)
    rw [← htw1] at hclose
    obtain ⟨s2, hs2, _, hdec⟩ := h4 _ hclose
    exact ⟨tw1, _, s2, h1, hclose, hs2, hdec⟩


/-! ## The temporary file of `WriteFileToTARArchive` -/

theorem setContent_names (fs : FileSystem) (name : Nat) (content : List Byte) :
    (fs.setContent name content).names = fs.names := by
  unfold FileSystem.setContent FileSystem.names
  simp only [List.map_map]
  apply List.map_congr_left
  intro f _
  by_cases h : f.1 = name
  · simp [h]
  · simp [h]

theorem le_foldr_max (l : List Nat) (n : Nat) (h : n ∈ l) : n ≤ l.foldr max 0 := by
  induction l with
  | nil => simp at h
  | cons a as ih =>
    rcases List.mem_cons.mp h with rfl | h1
    · simp
    · have := ih h1
      simp only [List.foldr_cons]
      omega

theorem freshName_not_mem (fs : FileSystem) : fs.freshName ∉ fs.names := by
  intro h
  have := le_foldr_max fs.names fs.freshName h
  unfold FileSystem.freshName at this
  omega

/-- Counterexample to C7: the successful call of the test "should write
file", started in a temporary directory without files, leaves the temporary
file it created, still holding the content. -/
theorem WriteFileToTARArchive_leaves_temp_file :
    (WriteFileToTARArchive singleBlock noTemps Faults.none 0 "testfile" (some testBody)
        (some (NewWriter (some Sink.fresh)))).outcome = .ok ∧
    noTemps.names = [] ∧
    (WriteFileToTARArchive singleBlock noTemps Faults.none 0 "testfile" (some testBody)
        (some (NewWriter (some Sink.fresh)))).fs.temps = [(1, testContent)] ∧
    (WriteFileToTARArchive singleBlock noTemps Faults.none 0 "testfile" (some testBody)
        (some (NewWriter (some Sink.fresh)))).fs.names ≠ noTemps.names := by
  refine ⟨by decide, by decide, by decide, by decide⟩

/-- C7, amended: the temporary file is closed, not deleted.  For every call,
whatever the arguments (nil ones included) and whatever fails: if the
temporary file cannot be created, the temporary directory is unchanged;
otherwise, on every exit (nil, any error, a panic), the temporary files after
the call are those before it together with the one new file the call
created, and the handles open after the call are those open before it. -/
theorem WriteFileToTARArchive_temp_file_closed_not_deleted (enc : Encoder) (fs : FileSystem)
    (faults : Faults) (now : Nat) (filename : String) (contentReader : Option ContentReader)
    (outArchive : Option TarWriter) :
    (faults.create ≠ none →
      (WriteFileToTARArchive enc fs faults now filename contentReader outArchive).fs = fs) ∧
    (faults.create = none →
      (WriteFileToTARArchive enc fs faults now filename contentReader outArchive).fs.names
        = fs.names ++ [fs.freshName] ∧
      fs.freshName ∉ fs.names ∧
      (WriteFileToTARArchive enc fs faults now filename contentReader outArchive).fs.opened
        = fs.opened) := by
  constructor
  · intro h
    cases hc : faults.create with
    | none => exact absurd hc h
    | some e => simp [WriteFileToTARArchive, hc]
  · intro hc
    refine ⟨?_, freshName_not_mem fs, ?_⟩
    · simp only [WriteFileToTARArchive, hc]
      show ((fs.createTemp.setContent _ _).close _).names = _
      unfold FileSystem.close
      show (fs.createTemp.setContent _ _).names = _
      rw [setContent_names]
      simp [FileSystem.createTemp, FileSystem.names]
    · simp [WriteFileToTARArchive, hc, FileSystem.close, FileSystem.setContent,
        FileSystem.createTemp]

/-- Witness of the amended C7: the call of the test "should write file", a
call whose content reader fails, and a call with a nil tar writer each leave
exactly the one new temporary file. -/
theorem WriteFileToTARArchive_temp_file_closed_not_deleted_witness :
    (WriteFileToTARArchive singleBlock noTemps Faults.none 0 "testfile" (some testBody)
        (some (NewWriter (some Sink.fresh)))).fs.names = [1] ∧
    (WriteFileToTARArchive singleBlock noTemps Faults.none 0 "testfile"
        (some { chunks := [testContent], fin := .fail (.failure "read failed") })
        (some (NewWriter (some Sink.fresh)))).fs.names = [1] ∧
    (WriteFileToTARArchive singleBlock noTemps Faults.none 0 "testfile" (some testBody) none).fs.names = [1] :=
  ⟨((WriteFileToTARArchive_temp_file_closed_not_deleted singleBlock noTemps Faults.none 0 "testfile"
      (some testBody) (some (NewWriter (some Sink.fresh)))).2 rfl).1,
   ((WriteFileToTARArchive_temp_file_closed_not_deleted singleBlock noTemps Faults.none 0 "testfile"
      (some { chunks := [testContent], fin := .fail (.failure "read failed") })
      (some (NewWriter (some Sink.fresh)))).2 rfl).1,
   ((WriteFileToTARArchive_temp_file_closed_not_deleted singleBlock noTemps Faults.none 0 "testfile"
      (some testBody) none).2 rfl).1⟩

/-! ## The errors the two functions return -/

theorem appendBody_error_shape (enc : Encoder) (faults : Faults) (now : Nat) (filename : String)
    (contentReader : Option ContentReader) (outArchive : Option TarWriter) (e : Error)
    (h : (appendBody enc faults now filename contentReader outArchive).1 = .fail e) :
    ∃ msg cause, e = .wrapped msg cause ∧
      msg ∈ ["unable to write content to file", "unable to seek to beginning of file",
        "unable to get file info", "unable to write tar header",
        "unable to write file to tar archive"] := by
  unfold appendBody at h
  cases contentReader with
  | none => simp at h
  | some rd =>
    simp only at h
    cases hcf : copyToFile faults.writeBudget [] rd.chunks rd.fin with
    | mk oe c =>
      rw [hcf] at h
      cases oe with
      | some e1 =>
        simp only [Outcome.fail.injEq] at h
        exact ⟨_, _, h.symm, by simp⟩
      | none =>
        simp only at h
        cases hseek : faults.seek with
        | some e1 =>
          simp only [hseek, Outcome.fail.injEq] at h
          exact ⟨_, _, h.symm, by simp⟩
        | none =>
          cases hstat : faults.stat with
          | some e1 =>
            simp only [hseek, hstat, Outcome.fail.injEq] at h
            exact ⟨_, _, h.symm, by simp⟩
          | none =>
            simp only [hseek, hstat] at h
            cases outArchive with
            | none => simp at h
            | some tw =>
              simp only at h
              cases hwh : tw.WriteHeader enc (fileHeader filename c.length now) with
              | mk o1 twa =>
                rw [hwh] at h
                cases o1 with
                | fail e1 =>
                  simp only [Outcome.fail.injEq] at h
                  exact ⟨_, _, h.symm, by simp⟩
                | panic => simp at h
                | ok =>
                  simp only at h
                  cases hcp : copyToTar twa (fileReads c) .eof with
                  | mk o2 twb =>
                    rw [hcp] at h
                    cases o2 with
                    | fail e1 =>
                      simp only [Outcome.fail.injEq] at h
                      exact ⟨_, _, h.symm, by simp⟩
                    | panic => simp at h
                    | ok => simp at h

/-- Every error `WriteFileToTARArchive` returns is one of its six wrapped
errors of the operating system, the reader or the tar writer. -/
theorem WriteFileToTARArchive_error_shape (enc : Encoder) (fs : FileSystem) (faults : Faults)
    (now : Nat) (filename : String) (contentReader : Option ContentReader)
    (outArchive : Option TarWriter) (e : Error)
    (h : (WriteFileToTARArchive enc fs faults now filename contentReader outArchive).outcome
      = .fail e) :
    ∃ msg cause, e = .wrapped msg cause ∧
      msg ∈ ["unable to create tempfile", "unable to write content to file",
        "unable to seek to beginning of file", "unable to get file info",
        "unable to write tar header", "unable to write file to tar archive"] := by
  unfold WriteFileToTARArchive at h
  cases hc : faults.create with
  | some e1 =>
    simp only [hc, Outcome.fail.injEq] at h
    exact ⟨_, _, h.symm, by simp⟩
  | none =>
    simp only [hc] at h
    obtain ⟨msg, cause, h1, h2⟩ := appendBody_error_shape _ _ _ _ _ _ e h
    refine ⟨msg, cause, h1, ?_⟩
    simp only [List.mem_cons, List.mem_singleton, List.not_mem_nil, or_false] at h2 ⊢
    exact Or.inr h2

theorem filterLoop_error_shape (m : Matcher) (enc : Encoder) (P : List String)
    (xs : List InEntry) (final : ReadEnd) (tw : TarWriter) (e : Error)
    (h : (filterLoop m enc P xs final tw).1 = .fail e) :
    ∃ msg cause, e = .wrapped msg cause ∧
      msg ∈ ["unable to read header", "unable to match filename against pattern",
        "unable to write header", "unable to write file"] := by
  induction xs generalizing tw with
  | nil =>
    cases final with
    | eof => simp [filterLoop] at h
    | fail e1 =>
      simp only [filterLoop, Outcome.fail.injEq] at h
      exact ⟨_, _, h.symm, by simp⟩
  | cons x rest ih =>
    unfold filterLoop at h
    cases hrm : removeFile m P x.header.Name with
    | error e1 =>
      simp only [hrm, Outcome.fail.injEq] at h
      exact ⟨_, _, h.symm, by simp⟩
    | ok b =>
      cases b with
      | true =>
        simp only [hrm] at h
        cases hend : x.bodyEnd with
        | fail e1 =>
          simp only [hend, Outcome.fail.injEq] at h
          exact ⟨_, _, h.symm, by simp⟩
        | eof =>
          simp only [hend] at h
          exact ih tw h
      | false =>
        simp only [hrm] at h
        cases hwh : tw.WriteHeader enc x.header with
        | mk o1 twa =>
          rw [hwh] at h
          cases o1 with
          | fail e1 =>
            simp only [Outcome.fail.injEq] at h
            exact ⟨_, _, h.symm, by simp⟩
          | panic => simp at h
          | ok =>
            simp only at h
            cases hcp : copyToTar twa x.chunks x.bodyEnd with
            | mk o2 twb =>
              rw [hcp] at h
              cases o2 with
              | fail e1 =>
                simp only [Outcome.fail.injEq] at h
                exact ⟨_, _, h.symm, by simp⟩
              | panic => simp at h
              | ok =>
                simp only at h
                exact ih twb h

/-- Every error `FilterTARArchive` returns is one of its four wrapped errors. -/
theorem FilterTARArchive_error_shape (m : Matcher) (enc : Encoder) (r : Option TarInput)
    (w : Option Sink) (P : List String) (e : Error)
    (h : (FilterTARArchive m enc r w P).1 = .fail e) :
    ∃ msg cause, e = .wrapped msg cause ∧
      msg ∈ ["unable to read header", "unable to match filename against pattern",
        "unable to write header", "unable to write file"] := by
  unfold FilterTARArchive at h
  simp only at h
  split at h
  · simp at h
  · cases r with
    | none => simp at h
    | some inp => exact filterLoop_error_shape m enc P inp.entries inp.final _ e h

/-- The text of a wrapped error starts with the text it is wrapped in. -/
theorem wrapped_message_ne (msg : String) (cause : Error) (expected : String)
    (h : msg.data.head? ≠ expected.data.head?) (hne : msg ≠ "") :
    (Error.wrapped msg cause).message ≠ expected := by
  intro heq
  apply h
  have hd := congrArg String.data heq
  simp only [Error.message, String.data_append] at hd
  rw [← hd]
  cases hm : msg.data with
  | nil =>
    exfalso; apply hne
    cases msg
    simp_all
  | cons c cs => simp

/-! ## Claims the code does not meet -/

/-- C3 at the inputs of the tests: with an empty file name the call returns
nil and appends an entry with the empty name; with a nil content reader and
with a nil tar writer it panics.  And whatever the arguments, an error the
call returns never has one of the three texts the tests expect. -/
theorem WriteFileToTARArchive_preconditions_unchecked :
    (WriteFileToTARArchive singleBlock noTemps Faults.none 0 "" (some emptyBody)
        (some (NewWriter (some Sink.fresh)))).outcome = .ok ∧
    (WriteFileToTARArchive singleBlock noTemps Faults.none 0 "" (some emptyBody)
        (some (NewWriter (some Sink.fresh)))).tw
      = some (openOn [Cell.hdr { Typeflag := TypeReg, Name := "", Size := 0, Mode := 0o600, ModTime := 0 }] 0 0) ∧
    (WriteFileToTARArchive singleBlock noTemps Faults.none 0 "testfile" none
        (some (NewWriter (some Sink.fresh)))).outcome = .panic ∧
    (WriteFileToTARArchive singleBlock noTemps Faults.none 0 "testfile" (some emptyBody) none).outcome
      = .panic ∧
    (∀ (enc : Encoder) (fs : FileSystem) (faults : Faults) (now : Nat) (filename : String)
        (contentReader : Option ContentReader) (outArchive : Option TarWriter) (e : Error),
      (WriteFileToTARArchive enc fs faults now filename contentReader outArchive).outcome
        = .fail e →
      e.message ≠ "filename must not be empty" ∧ e.message ≠ "inputReader must not be nil" ∧
        e.message ≠ "outputWriter must not be nil") := by
  refine ⟨by decide, by decide, by decide, by decide, ?_⟩
  intro enc fs faults now filename contentReader outArchive e h
  obtain ⟨msg, cause, rfl, hmsg⟩ := WriteFileToTARArchive_error_shape _ _ _ _ _ _ _ e h
  simp only [List.mem_cons, List.mem_singleton, List.not_mem_nil, or_false] at hmsg
  rcases hmsg with rfl | rfl | rfl | rfl | rfl | rfl <;>
    exact ⟨wrapped_message_ne _ _ _ (by decide) (by decide),
      wrapped_message_ne _ _ _ (by decide) (by decide),
      wrapped_message_ne _ _ _ (by decide) (by decide)⟩

/-- C5 at the inputs of the tests: with a nil input reader the call panics
in `tr.Next()`, with a nil output writer it panics in the deferred
`tw.Close()`.  And whatever the arguments, an error the call returns never
has one of the two texts the tests expect. -/
theorem FilterTARArchive_nil_arguments_unchecked :
    (FilterTARArchive filepathMatch singleBlock none (some Sink.fresh) []).1 = .panic ∧
    (FilterTARArchive filepathMatch singleBlock (some emptyArchive) none []).1 = .panic ∧
    (∀ (m : Matcher) (enc : Encoder) (r : Option TarInput) (w : Option Sink) (P : List String)
        (e : Error),
      (FilterTARArchive m enc r w P).1 = .fail e →
      e.message ≠ "inputReader must not be nil" ∧ e.message ≠ "outputWriter must not be nil") := by
  refine ⟨by decide, by decide, ?_⟩
  intro m enc r w P e h
  obtain ⟨msg, cause, rfl, hmsg⟩ := FilterTARArchive_error_shape m enc r w P e h
  simp only [List.mem_cons, List.mem_singleton, List.not_mem_nil, or_false] at hmsg
  rcases hmsg with rfl | rfl | rfl | rfl <;>
    exact ⟨wrapped_message_ne _ _ _ (by decide) (by decide),
      wrapped_message_ne _ _ _ (by decide) (by decide)⟩

/-- C8 at two failing outputs.  On the archive of the one file
`first/testfile`, an output that accepts four write calls takes the header
and the body and refuses the padding of the deferred close; on the archive
without entries, an output that accepts one write call refuses the
end-of-archive marker.  In both cases `Close` reports the error and the call
returns nil, the output being no finished archive. -/
theorem FilterTARArchive_close_error_dropped :
    (FilterTARArchive filepathMatch singleBlock (some { entries := [firstFile], final := .eof })
        (some { written := [], budget := some 4 }) [])
      = (.ok, some { written := Cell.hdr firstFile.header :: someContent.map Cell.byte,
                     budget := some 0 }) ∧
    decodeArchive (Cell.hdr firstFile.header :: someContent.map Cell.byte) = none ∧
    (TarWriter.Close { w := some { written := Cell.hdr firstFile.header :: someContent.map Cell.byte,
                                   budget := some 0 },
                       err := none, nb := 0, pad := blockPadding 12 }).1 = .fail sinkError ∧
    (FilterTARArchive filepathMatch singleBlock (some emptyArchive)
        (some { written := [], budget := some 1 }) [])
      = (.ok, some { written := [], budget := some 0 }) ∧
    decodeArchive [] = none ∧
    (TarWriter.Close (NewWriter (some { written := [], budget := some 1 }))).1
      = .fail sinkError := by
  refine ⟨by decide, by decide, by decide, by decide, by decide, by decide⟩


/-! ## Names with a trailing slash -/

/-- A name that ends in a slash makes the tar writer promote the header the
call builds to a directory, which has no body: with the content
`testcontent` the copy into the archive fails with `ErrWriteTooLong`, with
no content the call returns nil and appends a directory entry. -/
theorem WriteFileToTARArchive_trailing_slash_name :
    (WriteFileToTARArchive singleBlock noTemps Faults.none 0 "dir/" (some testBody)
        (some (NewWriter (some Sink.fresh)))).outcome
      = .fail (.wrapped "unable to write file to tar archive" .errWriteTooLong) ∧
    (WriteFileToTARArchive singleBlock noTemps Faults.none 0 "dir/" (some emptyBody)
        (some (NewWriter (some Sink.fresh)))).outcome = .ok ∧
    (WriteFileToTARArchive singleBlock noTemps Faults.none 0 "dir/" (some emptyBody)
        (some (NewWriter (some Sink.fresh)))).tw
      = some (openOn [Cell.hdr { Typeflag := TypeDir, Name := "dir/", Size := 0, Mode := 0o600,
                                 ModTime := 0 }] 0 0) := by
  refine ⟨by decide, by decide, by decide⟩

end ComponentCli
